import Mathlib

/-!
# goCrawler `utils`: link classification and domain scoping

A shallow embedding of `src/utils/utils.go`.

* A Go `string` is modelled as the list of its Unicode code points (`List Char`).
* A call that may stop with a run-time panic returns an `Outcome`.
* `regexp.MustCompile`, `MatchString` and `FindStringSubmatch` are modelled by a
  parser and a leftmost-first backtracking matcher for the fragment of RE2 syntax
  in which the patterns of this package are written: literals, `.`, `^`, `$`,
  escaped punctuation, `\w`, `\d`, bracket classes without ranges, capture groups,
  `|`, and the greedy operators `*`, `+`, `?`.
  A pattern outside this fragment yields `Fault.unsupported`, on which no theorem relies.
* `unicode.ToLower`, the case table of the Go standard library, is a parameter `lower`;
  what the theorems on case need of it is the hypothesis `IsUnicodeToLower`.
* A `map[string]struct{}` is the list of its keys, each once; the order in which `range`
  visits them, which Go leaves unspecified, is a parameter `rangeOrder`.
* An `*os.File` is a record of what `WriteToFileAndClose` can change (content, flushed,
  closed); what the operating system answers to each call is a parameter `Faults`.
-/

namespace Utils

/-! ## Outcomes -/

/-- The ways in which a call can end without a value. -/
inductive Fault where
  /-- A Go run-time panic (index out of range, failed `MustCompile`). -/
  | panic
  /-- The pattern leaves the modelled fragment of RE2 syntax; the model says nothing. -/
  | unsupported
  deriving DecidableEq, Repr

/-- Result of a call that may panic. -/
abbrev Outcome (α : Type) := Except Fault α

deriving instance DecidableEq for Except

/-! ## Regular expressions (package `regexp`) -/

/-- One member of a bracket class. -/
inductive ClassItem where
  /-- A single code point. -/
  | single (c : Char)
  /-- Perl class `\w`: `[0-9A-Za-z_]`. -/
  | word
  /-- Perl class `\d`: `[0-9]`. -/
  | digit
  deriving DecidableEq, Repr

/-- Abstract syntax of the modelled patterns. `x+` is `cat x (star x)` and `x?` is `alt x empty`. -/
inductive Regex where
  /-- Matches the empty string. -/
  | empty
  /-- A literal code point. -/
  | lit (c : Char)
  /-- The dot: any code point except the line feed. -/
  | anyNotNL
  /-- A bracket class, possibly negated. -/
  | cls (negated : Bool) (items : List ClassItem)
  /-- `^` without the multi-line flag: beginning of the text. -/
  | bol
  /-- `$` without the multi-line flag: end of the text. -/
  | eol
  /-- Concatenation. -/
  | cat (a b : Regex)
  /-- Alternation, the left branch preferred. -/
  | alt (a b : Regex)
  /-- Greedy repetition, zero or more times. -/
  | star (a : Regex)
  /-- Capture group number `n`. -/
  | group (n : Nat) (a : Regex)
  deriving DecidableEq, Repr

/-- Concatenation of a sequence of expressions. -/
def catList : List Regex → Regex
  | [] => .empty
  | r :: rs => .cat r (catList rs)

/-- Entries of the parser stack. -/
inductive Item where
  /-- A parsed expression. -/
  | re (r : Regex)
  /-- An open parenthesis of capture group `n`. -/
  | lparen (n : Nat)
  /-- A vertical bar. -/
  | vbar
  deriving DecidableEq, Repr

/-- What the parser is in the middle of. -/
inductive Mode where
  /-- Between atoms. -/
  | normal
  /-- Right after `*`, `+` or `?`. -/
  | afterRepeat
  /-- Right after `(`. -/
  | groupOpen
  /-- Right after a backslash outside a class. -/
  | escape
  /-- Right after `[`. -/
  | classOpen
  /-- Inside a class; `first` before any member, `lo` when the last member was a single code point. -/
  | classBody (negated : Bool) (items : List ClassItem) (first : Bool) (lo : Bool)
  /-- Inside a class, right after a `-` that follows a single code point. -/
  | classDash (negated : Bool) (items : List ClassItem)
  /-- Inside a class, right after a backslash. -/
  | classEscape (negated : Bool) (items : List ClassItem)
  deriving DecidableEq, Repr

/-- Parser state: operand stack (top first), mode, number of groups opened so far. -/
structure PState where
  stack : List Item
  mode : Mode
  ncap : Nat
  deriving DecidableEq, Repr

/-- Pops the expressions above the nearest marker, oldest first. -/
def popRun : List Item → List Regex → List Regex × List Item
  | .re r :: st, acc => popRun st (r :: acc)
  | st, acc => (acc, st)

/-- Pops the alternatives left of the current one. -/
def popAlts : List Item → Regex → Regex × List Item
  | .vbar :: .re r :: st, acc => popAlts st (.alt r acc)
  | st, acc => (acc, st)

/-- Closes the concatenation and the alternation on top of the stack. -/
def collapse (stack : List Item) : Regex × List Item :=
  let (rs, st) := popRun stack []
  popAlts st (catList rs)

/-- Applies a repetition operator to the expression on top of the stack. -/
def repeatTop (st : PState) (f : Regex → Regex) : Outcome PState :=
  match st.stack with
  | .re r :: below => .ok { st with stack := .re (f r) :: below, mode := .afterRepeat }
  | _ => .error .panic

/-- Pushes an atom. -/
def pushRe (st : PState) (r : Regex) : PState :=
  { st with stack := .re r :: st.stack, mode := .normal }

/-- Whether a backslash makes this code point a literal: ASCII and not alphanumeric. -/
def isEscapablePunct (c : Char) : Bool :=
  c.val < 128 && !c.isAlphanum

/-- One code point of the pattern, outside classes and escapes. -/
def stepNormal (st : PState) (c : Char) : Outcome PState :=
  if c = '\\' then .ok { st with mode := .escape }
  else if c = '.' then .ok (pushRe st .anyNotNL)
  else if c = '^' then .ok (pushRe st .bol)
  else if c = '$' then .ok (pushRe st .eol)
  else if c = '[' then .ok { st with mode := .classOpen }
  else if c = '(' then
    .ok { stack := .lparen (st.ncap + 1) :: st.stack, mode := .groupOpen, ncap := st.ncap + 1 }
  else if c = ')' then
    match collapse st.stack with
    | (r, .lparen n :: below) => .ok { st with stack := .re (.group n r) :: below, mode := .normal }
    | _ => .error .panic
  else if c = '|' then
    let (rs, below) := popRun st.stack []
    .ok { st with stack := .vbar :: .re (catList rs) :: below, mode := .normal }
  else if c = '*' then repeatTop st .star
  else if c = '+' then repeatTop st (fun r => .cat r (.star r))
  else if c = '?' then repeatTop st (fun r => .alt r .empty)
  else if c = '\x7b' then .error .unsupported
  else .ok (pushRe st (.lit c))

/-- One code point of the pattern inside a bracket class. -/
def stepClass (st : PState) (negated : Bool) (items : List ClassItem) (first lo : Bool)
    (c : Char) : Outcome PState :=
  if c = ']' then
    if first then .ok { st with mode := .classBody negated (items ++ [.single c]) false true }
    else .ok (pushRe st (.cls negated items))
  else if c = '\\' then .ok { st with mode := .classEscape negated items }
  else if c = '[' then .error .unsupported
  else if c = '-' then
    if lo then .ok { st with mode := .classDash negated items }
    else .ok { st with mode := .classBody negated (items ++ [.single c]) false true }
  else .ok { st with mode := .classBody negated (items ++ [.single c]) false true }

/-- One code point of the pattern. -/
def step (st : PState) (c : Char) : Outcome PState :=
  match st.mode with
  | .normal => stepNormal st c
  | .afterRepeat =>
    if c = '*' ∨ c = '+' ∨ c = '?' then .error .unsupported else stepNormal st c
  | .groupOpen => if c = '?' then .error .unsupported else stepNormal st c
  | .escape =>
    if c = 'w' then .ok (pushRe st (.cls false [.word]))
    else if c = 'd' then .ok (pushRe st (.cls false [.digit]))
    else if isEscapablePunct c then .ok (pushRe st (.lit c))
    else .error .unsupported
  | .classOpen =>
    if c = '^' then .ok { st with mode := .classBody true [] true false }
    else stepClass st false [] true false c
  | .classBody negated items first lo => stepClass st negated items first lo c
  | .classDash negated items =>
    if c = ']' then .ok (pushRe st (.cls negated (items ++ [.single '-'])))
    else .error .unsupported
  | .classEscape negated items =>
    if c = 'w' then .ok { st with mode := .classBody negated (items ++ [.word]) false false }
    else if c = 'd' then .ok { st with mode := .classBody negated (items ++ [.digit]) false false }
    else if isEscapablePunct c then
      .ok { st with mode := .classBody negated (items ++ [.single c]) false true }
    else .error .unsupported

/-- End of the pattern: everything must be closed. -/
def finish (st : PState) : Outcome Regex :=
  match st.mode with
  | .normal | .afterRepeat | .groupOpen =>
    match collapse st.stack with
    | (r, []) => .ok r
    | _ => .error .panic
  | _ => .error .panic

/-- Go `regexp.MustCompile`: the parsed pattern, or a panic on a syntax error. -/
def MustCompile (pattern : List Char) : Outcome Regex :=
  pattern.foldlM step { stack := [], mode := .normal, ncap := 0 } >>= finish

/-- Whether a bracket-class member contains the code point. -/
def ClassItem.contains : ClassItem → Char → Bool
  | .single a, c => c == a
  | .word, c => c.isAlphanum || c == '_'
  | .digit, c => c.isDigit

/-- Whether a bracket class accepts the code point. -/
def classAccepts (negated : Bool) (items : List ClassItem) (c : Char) : Bool :=
  xor negated (items.any fun i => i.contains c)

/-- A point of a match in progress: offset, text still ahead, groups captured so far
(most recent first). -/
structure MState where
  pos : Nat
  rest : List Char
  caps : List (Nat × List Char)
  deriving DecidableEq, Repr

/-- Consumes one code point if it satisfies the test. -/
def eat (test : Char → Bool) (s : MState) : List MState :=
  match s.rest with
  | c :: t => if test c then [{ s with pos := s.pos + 1, rest := t }] else []
  | [] => []

/-- Greedy repetition of `body`; the results of longer repetitions come first. A round that
consumes nothing is not taken (no repeated expression of this package can match the empty
string). The fuel is the length of the text ahead, which bounds the number of rounds. -/
def starLoop (body : MState → List MState) : Nat → MState → List MState
  | 0, s => [s]
  | fuel + 1, s =>
    ((body s).filter fun s' => s'.rest.length < s.rest.length).flatMap (starLoop body fuel) ++ [s]

/-- All ways of matching the expression from a point, in backtracking order. -/
def run : Regex → MState → List MState
  | .empty, s => [s]
  | .lit a, s => eat (fun c => c == a) s
  | .anyNotNL, s => eat (fun c => c != '\n') s
  | .cls negated items, s => eat (classAccepts negated items) s
  | .bol, s => if s.pos = 0 then [s] else []
  | .eol, s => if s.rest.isEmpty then [s] else []
  | .cat a b, s => (run a s).flatMap (run b)
  | .alt a b, s => run a s ++ run b s
  | .star a, s => starLoop (run a) s.rest.length s
  | .group n a, s =>
    (run a s).map fun s' => { s' with caps := (n, s.rest.take (s'.pos - s.pos)) :: s'.caps }

/-- The preferred match starting at offset `i`, if there is one. -/
def matchAt (r : Regex) (text : List Char) (i : Nat) : Option MState :=
  (run r { pos := i, rest := text.drop i, caps := [] }).head?

/-- The leftmost match: its start offset and end point. -/
def firstMatch (r : Regex) (text : List Char) : Option (Nat × MState) :=
  (List.range (text.length + 1)).findSome? fun i => (matchAt r text i).map fun s => (i, s)

/-- Go `(*Regexp).MatchString`: whether the text contains a match. -/
def MatchString (r : Regex) (text : List Char) : Bool :=
  (firstMatch r text).isSome

/-- Number of capture groups of an expression. -/
def numSubexp : Regex → Nat
  | .cat a b | .alt a b => max (numSubexp a) (numSubexp b)
  | .star a => numSubexp a
  | .group n a => max n (numSubexp a)
  | _ => 0

/-- Go `(*Regexp).FindStringSubmatch`: the text of the leftmost match followed by the text
of each capture group (empty for a group that took no part), or `none` without a match. -/
def FindStringSubmatch (r : Regex) (text : List Char) : Option (List (List Char)) :=
  (firstMatch r text).map fun (i, s) =>
    ((text.drop i).take (s.pos - i)) ::
      (List.range (numSubexp r)).map fun g => (s.caps.lookup (g + 1)).getD []

/-! ## Package `strings` -/

/-- Go `strings.Split(s, sep)` for a separator of one code point. -/
def Split : List Char → Char → List (List Char)
  | [], _ => [[]]
  | c :: cs, sep =>
    if c = sep then [] :: Split cs sep
    else
      match Split cs sep with
      | p :: ps => (c :: p) :: ps
      | [] => [[c]]

/-- Go `strings.Split(s, "")`: one string per code point. -/
def explode (s : List Char) : List (List Char) :=
  s.map fun c => [c]

/-- Go `strings.Join`. -/
def Join : List (List Char) → List Char → List Char
  | [], _ => []
  | [p], _ => p
  | p :: q :: ps, sep => p ++ sep ++ Join (q :: ps) sep

/-- Go `strings.Replace(s, old, new, -1)` for an `old` of one code point. -/
def Replace (s : List Char) (old : Char) (new : List Char) : List Char :=
  s.flatMap fun c => if c = old then new else [c]

/-- Go `strings.HasSuffix`. -/
def HasSuffix (s suffix : List Char) : Bool :=
  suffix.isSuffixOf s

/-- Go `strings.ToLower` on well-formed text: `unicode.ToLower` applied to every code point.
The Unicode case table of the Go standard library is the parameter `lower`. -/
def ToLower (lower : Char → Char) (s : List Char) : List Char :=
  s.map lower

/-- Go index expression `xs[i]`: panics when the index is out of range. -/
def index {α : Type} (xs : List α) (i : Int) : Outcome α :=
  if i < 0 then .error .panic
  else
    match xs.get? i.toNat with
    | some x => .ok x
    | none => .error .panic

/-- Go slice expression `xs[lo:hi]`: panics unless `0 ≤ lo ≤ hi ≤ len(xs)`. -/
def slice {α : Type} (xs : List α) (lo hi : Int) : Outcome (List α) :=
  if 0 ≤ lo ∧ lo ≤ hi ∧ hi ≤ xs.length then .ok ((xs.take hi.toNat).drop lo.toNat)
  else .error .panic

/-! ## Package `utils` -/

/-- `FilterSlice`: appends to the result every element the predicate accepts. -/
def FilterSlice (xs : List (List Char)) (predicate : List Char → Bool) : List (List Char) :=
  xs.foldl (fun filtered s => if predicate s then filtered ++ [s] else filtered) []

/-- `AddFollowingSlash`: adds a slash unless the last code point is one. -/
def AddFollowingSlash (str : List Char) : Outcome (List Char) := do
  let chars := explode str
  let last ← index chars ((chars.length : Int) - 1)
  if last ≠ "/".toList then
    return str ++ "/".toList
  return str

/-- `IsFile`: whether the lower-cased address ends in one of nine extensions. -/
def IsFile (lower : Char → Char) (address : List Char) : Bool :=
  let address := ToLower lower address
  HasSuffix address ".htm".toList ||
    HasSuffix address ".html".toList ||
    HasSuffix address ".xml".toList ||
    HasSuffix address ".jpeg".toList ||
    HasSuffix address ".jpg".toList ||
    HasSuffix address ".png".toList ||
    HasSuffix address ".ico".toList ||
    HasSuffix address ".php".toList ||
    HasSuffix address ".gif".toList

/-- `AddFollowingSlashToUrl`: files are left alone, other addresses get a final slash. -/
def AddFollowingSlashToUrl (lower : Char → Char) (url : List Char) : Outcome (List Char) :=
  if IsFile lower url then
    .ok url
  else
    AddFollowingSlash url

/-- `ExtractUrlBeforeSharp`. -/
def ExtractUrlBeforeSharp (url : List Char) : Outcome (List Char) := do
  let tagPattern := (r"^(.*)[#].*$").toList
  let r ← MustCompile tagPattern
  match FindStringSubmatch r url with
  | some beforeSharp => index beforeSharp 1
  | none => return url

/-- `ExtractUrlBeforeQuestMark`. -/
def ExtractUrlBeforeQuestMark (url : List Char) : Outcome (List Char) := do
  let questPattern := (r"^(.*)[?].*$").toList
  let r ← MustCompile questPattern
  match FindStringSubmatch r url with
  | some beforeQuest => index beforeQuest 1
  | none => return url

/-- `IsUrl`. -/
def IsUrl (url : List Char) : Outcome Bool := do
  let urlPattern := (r"^https?://.+\..+$").toList
  let r ← MustCompile urlPattern
  return MatchString r url

/-- `FilterLinksNotInDomain`. -/
def FilterLinksNotInDomain (domain : List Char) (links : List (List Char))
    (includeSubdomains : Bool) : Outcome (List (List Char)) := do
  let domainParts := Split domain '.'
  let lastTwo ← slice domainParts ((domainParts.length : Int) - 2) domainParts.length
  let domainWithoutSubdoms := Join lastTwo ".".toList
  let domainPattern :=
    if includeSubdomains then
      (r"^https?:\/\/([-\w\d]+\.)*").toList ++
        Replace domainWithoutSubdoms '.' (r"\.").toList ++ (r"\/.*$").toList
    else
      (r"^https?:\/\/(www\.)?").toList ++
        Replace domainWithoutSubdoms '.' (r"\.").toList ++ (r"\/.*$").toList
  let r ← MustCompile domainPattern
  return FilterSlice links fun link => MatchString r link

/-! ## Declarative meaning of expressions -/

/-- Declarative meaning of an expression: it matches the text between two points
(offset and text still ahead). A round of a repetition consumes input. -/
inductive Den : Regex → Nat → List Char → Nat → List Char → Prop
  | empty (p w) : Den .empty p w p w
  | lit (a p w) : Den (.lit a) p (a :: w) (p + 1) w
  | anyNotNL (c p w) : c ≠ '\n' → Den .anyNotNL p (c :: w) (p + 1) w
  | cls (negated items c p w) : classAccepts negated items c = true →
      Den (.cls negated items) p (c :: w) (p + 1) w
  | bol (w) : Den .bol 0 w 0 w
  | eol (p) : Den .eol p [] p []
  | cat {a b p w p₁ w₁ p₂ w₂} : Den a p w p₁ w₁ → Den b p₁ w₁ p₂ w₂ → Den (.cat a b) p w p₂ w₂
  | altLeft {a p w p₁ w₁} (b) : Den a p w p₁ w₁ → Den (.alt a b) p w p₁ w₁
  | altRight {b p w p₁ w₁} (a) : Den b p w p₁ w₁ → Den (.alt a b) p w p₁ w₁
  | starNil (a p w) : Den (.star a) p w p w
  | starCons {a p w p₁ w₁ p₂ w₂} : Den a p w p₁ w₁ → w₁.length < w.length →
      Den (.star a) p₁ w₁ p₂ w₂ → Den (.star a) p w p₂ w₂
  | group {a p w p₁ w₁} (n) : Den a p w p₁ w₁ → Den (.group n a) p w p₁ w₁

/-- The expression `urlPattern` compiles to. -/
def urlRegex : Regex :=
  catList [.bol, .lit 'h', .lit 't', .lit 't', .lit 'p', .alt (.lit 's') .empty, .lit ':',
    .lit '/', .lit '/', .cat .anyNotNL (.star .anyNotNL), .lit '.',
    .cat .anyNotNL (.star .anyNotNL), .eol]

/-! ## The specification's wording, as executable definitions -/

/-- The reading of `IsUrl` given in the specification: a scheme `http://` or `https://`, then
one or more code points, none of them whitespace and at least one of them a dot. -/
def isUrlAsWritten (s : List Char) : Bool :=
  ["http://".toList, "https://".toList].any fun scheme =>
    scheme.isPrefixOf s &&
      (!(s.drop scheme.length).isEmpty &&
        (s.drop scheme.length).all (fun c => !c.isWhitespace) &&
        (s.drop scheme.length).contains '.')

/-- The nine extensions `IsFile` tests for, in the order of the source. -/
def fileExtensions : List (List Char) :=
  [".htm".toList, ".html".toList, ".xml".toList, ".jpeg".toList, ".jpg".toList, ".png".toList,
    ".ico".toList, ".php".toList, ".gif".toList]

/-- The expression the patterns `^(.*)[#].*$` and `^(.*)[?].*$` compile to, `d` being the
delimiter in the bracket class. -/
def beforeRegex (d : Char) : Regex :=
  catList [.bol, .group 1 (catList [.star .anyNotNL]), .cls false [.single d],
    .star .anyNotNL, .eol]

/-- Whether an expression has no capture group. -/
def groupFree : Regex → Bool
  | .cat a b | .alt a b => groupFree a && groupFree b
  | .star a => groupFree a
  | .group _ _ => false
  | _ => true

/-- The rule of the specification for stripping at a delimiter: the text strictly before the
last occurrence of the delimiter, or the whole text when the delimiter does not occur. -/
def stripAsWritten (d : Char) (url : List Char) : List Char :=
  if url.contains d then ((url.reverse.dropWhile fun c => c != d).drop 1).reverse else url

/-- Letters, digits and the hyphen: the code points of a host-name label. -/
def isLetterDigitHyphen (c : Char) : Bool :=
  c.isAlphanum || c == '-'

/-- The bracket class `[-\w\d]` of the permissive domain pattern. -/
def subdomainClass : Regex :=
  .cls false [.single '-', .word, .digit]

/-- The expression the domain pattern compiles to when the last two labels `l₁` and `l₂` of
the reference domain are plain text: scheme, the sub-domain part chosen by
`includeSubdomains`, `l₁`, a dot, `l₂`, a slash, anything up to the end. -/
def domainRegex (includeSubdomains : Bool) (l₁ l₂ : List Char) : Regex :=
  catList
    ([.bol, .lit 'h', .lit 't', .lit 't', .lit 'p', .alt (.lit 's') .empty, .lit ':', .lit '/',
        .lit '/',
        if includeSubdomains then
          .star (.group 1 (catList [.cat subdomainClass (.star subdomainClass), .lit '.']))
        else
          .alt (.group 1 (catList [.lit 'w', .lit 'w', .lit 'w', .lit '.'])) .empty] ++
      l₁.map .lit ++ [.lit '.'] ++ l₂.map .lit ++ [.lit '/', .star .anyNotNL, .eol])

/-- ASCII letters, digits, the underscore and the hyphen: the code points of a sub-domain
label in the wording of the specification. -/
def isSubdomainChar (c : Char) : Bool :=
  c.isAlphanum || c == '_' || c == '-'

/-! ## Package `unicode` and `strings.TrimSpace` -/

/-- Go `unicode.IsSpace`: the code points with the Unicode property White_Space. -/
def IsSpace (c : Char) : Bool :=
  let n := c.toNat
  (0x09 ≤ n && n ≤ 0x0d) || n == 0x20 || n == 0x85 || n == 0xa0 || n == 0x1680 ||
    (0x2000 ≤ n && n ≤ 0x200a) || n == 0x2028 || n == 0x2029 || n == 0x202f || n == 0x205f ||
    n == 0x3000

/-- Go `strings.TrimSpace`: the string without its leading and trailing white space. -/
def TrimSpace (s : List Char) : List Char :=
  ((s.dropWhile IsSpace).reverse.dropWhile IsSpace).reverse

/-! ## Package `utils`: collections, `ExtractDomain`, `WriteToFileAndClose` -/

/-- Go map assignment `fooMap[str] = struct{}{}` on a `map[string]struct{}`, which is a set of
keys: the map is modelled as the list of its keys, each once. -/
def mapInsert (fooMap : List (List Char)) (str : List Char) : List (List Char) :=
  if str ∈ fooMap then fooMap else fooMap ++ [str]

/-- `UniqueStringSlice`: puts the strings into a map, then ranges over the map. Go leaves the
iteration order of `range` over a map unspecified; `rangeOrder` is the order in which one run
visits the keys. -/
def UniqueStringSlice (rangeOrder : List (List Char) → List (List Char))
    (initialSlice : List (List Char)) : List (List Char) :=
  let fooMap := initialSlice.foldl mapInsert []
  (rangeOrder fooMap).foldl (fun uniqueSlice k => uniqueSlice ++ [k]) []

/-- `RemoveEmptyStrings`: skips the strings that are empty once trimmed, appends the others
as they are. -/
def RemoveEmptyStrings (strs : List (List Char)) : List (List Char) :=
  strs.foldl (fun noEmpty str => if TrimSpace str = [] then noEmpty else noEmpty ++ [str]) []

/-- `FilterLinksToImages`: keeps the links whose lower-cased form has no image extension. -/
def FilterLinksToImages (lower : Char → Char) (links : List (List Char)) : List (List Char) :=
  FilterSlice links fun link =>
    let link := ToLower lower link
    !(HasSuffix link ".png".toList ||
      HasSuffix link ".jpg".toList ||
      HasSuffix link ".jpeg".toList ||
      HasSuffix link ".gif".toList ||
      HasSuffix link ".ico".toList)

/-- `ExtractDomain`: the element of index 2 of the URL split at slashes. -/
def ExtractDomain (url : List Char) : Outcome (List Char) :=
  index (Split url '/') 2

/-- An `*os.File` as `WriteToFileAndClose` uses it: the bytes written so far, whether they
were flushed, and whether the handle has been closed. -/
structure File where
  content : List UInt8
  synced : Bool
  closed : Bool
  deriving DecidableEq, Repr

/-- What the operating system answers to the three calls on one file: `none` for success,
`some err` for the error returned. -/
structure Faults (ε : Type) where
  write : Option ε
  sync : Option ε
  close : Option ε

/-- Go `file.Write(data)`. -/
def File.Write {ε : Type} (file : File) (data : List UInt8) (fault : Option ε) :
    File × Option ε :=
  match fault with
  | some err => (file, some err)
  | none => ({ file with content := file.content ++ data, synced := false }, none)

/-- Go `file.Sync()`. -/
def File.Sync {ε : Type} (file : File) (fault : Option ε) : File × Option ε :=
  match fault with
  | some err => (file, some err)
  | none => ({ file with synced := true }, none)

/-- Go `file.Close()`: the handle is released whether or not an error is reported. -/
def File.Close {ε : Type} (file : File) (fault : Option ε) : File × Option ε :=
  ({ file with closed := true }, fault)

/-- `WriteToFileAndClose`: write, sync, close, returning at the first error. The result is the
file as the call leaves it and the error returned (`none` for `nil`). -/
def WriteToFileAndClose {ε : Type} (faults : Faults ε) (file : File) (data : List UInt8) :
    File × Option ε :=
  match file.Write data faults.write with
  | (file, some err) => (file, some err)
  | (file, none) =>
    match file.Sync faults.sync with
    | (file, some err) => (file, some err)
    | (file, none) =>
      match file.Close faults.close with
      | (file, some err) => (file, some err)
      | (file, none) => (file, none)

/-- The image extensions `FilterLinksToImages` tests for, in the order of the source. -/
def imageExtensions : List (List Char) :=
  [".png".toList, ".jpg".toList, ".jpeg".toList, ".gif".toList, ".ico".toList]

/-! ## Case, as `strings.ToLower` sees it -/

/-- What `IsFile` and `FilterLinksToImages` depend on in the table of Go's `unicode.ToLower`:
`A`–`Z` go to `a`–`z`, every other ASCII code point is fixed, U+0130 (capital I with dot
above) goes to `i`, U+212A (Kelvin sign) goes to `k`, and every other code point goes to a
code point outside ASCII. -/
def IsUnicodeToLower (lower : Char → Char) : Prop :=
  (∀ c : Char, 65 ≤ c.toNat → c.toNat ≤ 90 → (lower c).toNat = c.toNat + 32) ∧
    (∀ c : Char, c.toNat < 128 → ¬ (65 ≤ c.toNat ∧ c.toNat ≤ 90) → lower c = c) ∧
    (∀ c : Char, c.toNat = 0x130 → lower c = 'i') ∧
    (∀ c : Char, c.toNat = 0x212A → lower c = 'k') ∧
    (∀ c : Char, 128 ≤ c.toNat → c.toNat ≠ 0x130 → c.toNat ≠ 0x212A → 128 ≤ (lower c).toNat)

/-- A case table that agrees with `unicode.ToLower` on every code point whose lower case is
ASCII, and leaves the other code points where they are. -/
def simpleLower (c : Char) : Char :=
  if c.toNat = 0x130 then 'i' else if c.toNat = 0x212A then 'k' else c.toLower

/-- Whether the code point `c` is the lower-case code point `e` up to case: `c` is `e`, or `e`
is one of `a`–`z` and `c` its capital `A`–`Z`, or `c` is one of the two capitals outside
ASCII whose lower case is ASCII, U+0130 for `i` and U+212A for `k`. -/
def sameIgnoringCase (c e : Char) : Bool :=
  c == e || (97 ≤ e.toNat && e.toNat ≤ 122 && c.toNat + 32 == e.toNat) ||
    (e == 'i' && c.toNat == 0x130) || (e == 'k' && c.toNat == 0x212A)

/-- Whether two strings are equal up to case, the second being in lower case. -/
def equalIgnoringCase : List Char → List Char → Bool
  | [], [] => true
  | c :: s, e :: ext => sameIgnoringCase c e && equalIgnoringCase s ext
  | _, _ => false

/-- Whether the string, compared without regard to case, ends with the lower-case
extension: its last `ext.length` code points equal `ext` up to case. -/
def endsWithIgnoringCase (s ext : List Char) : Bool :=
  equalIgnoringCase (s.drop (s.length - ext.length)) ext

/-! ## The domain pattern -/

/-- The code points outside a bracket class that RE2 syntax gives a meaning other than
themselves. -/
def isMetaChar (c : Char) : Bool :=
  c == '\\' || c == '.' || c == '^' || c == '$' || c == '[' || c == '(' || c == ')' ||
    c == '|' || c == '*' || c == '+' || c == '?' || c == '\x7b'

/-- The pattern `FilterLinksNotInDomain` assembles from the last two labels of the reference
domain. -/
def domainPattern (lastTwo : List (List Char)) (includeSubdomains : Bool) : List Char :=
  if includeSubdomains then
    (r"^https?:\/\/([-\w\d]+\.)*").toList ++
      Replace (Join lastTwo ".".toList) '.' (r"\.").toList ++ (r"\/.*$").toList
  else
    (r"^https?:\/\/(www\.)?").toList ++
      Replace (Join lastTwo ".".toList) '.' (r"\.").toList ++ (r"\/.*$").toList

/-! ## The matcher agrees with the declarative meaning -/

theorem mem_eat {test : Char → Bool} {s s' : MState} :
    s' ∈ eat test s ↔ ∃ c t, s.rest = c :: t ∧ test c = true ∧
      s' = { s with pos := s.pos + 1, rest := t } := by
  unfold eat
  cases h : s.rest with
  | nil => simp
  | cons c t =>
    by_cases hc : test c = true
    · simp only [hc, if_true, List.mem_singleton, List.cons.injEq]
      constructor
      · intro h'; exact ⟨c, t, ⟨rfl, rfl⟩, hc, h'⟩
      · rintro ⟨c', t', ⟨rfl, rfl⟩, _, h'⟩; exact h'
    · simp only [hc, List.cons.injEq]
      constructor
      · intro h'; simp at h'
      · rintro ⟨c', t', ⟨rfl, rfl⟩, h', _⟩; exact absurd h' hc

theorem starLoop_sound {body : MState → List MState} {a : Regex}
    (hbody : ∀ s s', s' ∈ body s → Den a s.pos s.rest s'.pos s'.rest) :
    ∀ n s s', s' ∈ starLoop body n s → Den (.star a) s.pos s.rest s'.pos s'.rest := by
  intro n
  induction n with
  | zero =>
    intro s s' h
    simp [starLoop] at h
    subst h
    exact Den.starNil _ _ _
  | succ n ih =>
    intro s s' h
    simp only [starLoop, List.mem_append, List.mem_flatMap, List.mem_filter, List.mem_singleton,
      decide_eq_true_eq] at h
    rcases h with ⟨m, ⟨hm, hlt⟩, hs'⟩ | h
    · exact Den.starCons (hbody _ _ hm) hlt (ih _ _ hs')
    · subst h
      exact Den.starNil _ _ _

theorem run_sound : ∀ (r : Regex) (s s' : MState), s' ∈ run r s →
    Den r s.pos s.rest s'.pos s'.rest := by
  intro r
  induction r with
  | empty =>
    intro s s' h
    simp [run] at h
    subst h
    exact Den.empty _ _
  | lit a =>
    intro s s' h
    simp only [run, mem_eat] at h
    obtain ⟨c, t, hr, hc, rfl⟩ := h
    simp at hc
    subst hc
    simp only [hr]
    exact Den.lit _ _ _
  | anyNotNL =>
    intro s s' h
    simp only [run, mem_eat] at h
    obtain ⟨c, t, hr, hc, rfl⟩ := h
    simp only [hr]
    exact Den.anyNotNL _ _ _ (by simpa using hc)
  | cls negated items =>
    intro s s' h
    simp only [run, mem_eat] at h
    obtain ⟨c, t, hr, hc, rfl⟩ := h
    simp only [hr]
    exact Den.cls _ _ _ _ _ hc
  | bol =>
    intro s s' h
    by_cases hp : s.pos = 0
    · simp [run, hp] at h
      subst h
      rw [hp]
      exact Den.bol _
    · simp [run, hp] at h
  | eol =>
    intro s s' h
    cases hr : s.rest with
    | nil =>
      simp [run, hr] at h
      subst h
      rw [hr]
      exact Den.eol _
    | cons c t => simp [run, hr] at h
  | cat a b iha ihb =>
    intro s s' h
    simp only [run, List.mem_flatMap] at h
    obtain ⟨m, hm, hs'⟩ := h
    exact Den.cat (iha _ _ hm) (ihb _ _ hs')
  | alt a b iha ihb =>
    intro s s' h
    simp only [run, List.mem_append] at h
    rcases h with h | h
    · exact Den.altLeft _ (iha _ _ h)
    · exact Den.altRight _ (ihb _ _ h)
  | star a iha =>
    intro s s' h
    simp only [run] at h
    exact starLoop_sound iha _ _ _ h
  | group n a iha =>
    intro s s' h
    simp only [run, List.mem_map] at h
    obtain ⟨m, hm, rfl⟩ := h
    exact Den.group _ (iha s m hm)

theorem starLoop_succ_eq (body : MState → List MState) :
    ∀ n s, s.rest.length ≤ n → starLoop body (n + 1) s = starLoop body n s := by
  intro n
  induction n with
  | zero =>
    intro s hs
    have : (body s).filter (fun s' => decide (s'.rest.length < s.rest.length)) = [] := by
      rw [List.filter_eq_nil_iff]
      intro x _
      simp
      omega
    simp [starLoop, this]
  | succ n ih =>
    intro s hs
    rw [starLoop, starLoop]
    congr 1
    apply List.flatMap_congr
    intro x hx
    simp only [List.mem_filter, decide_eq_true_eq] at hx
    exact ih x (by omega)

theorem starLoop_fuel (body : MState → List MState) (s : MState) :
    ∀ n, s.rest.length ≤ n → starLoop body n s = starLoop body s.rest.length s := by
  intro n hn
  induction n, hn using Nat.le_induction with
  | base => rfl
  | succ n hn ih => rw [starLoop_succ_eq body n s hn, ih]

theorem run_complete {r : Regex} {p p' : Nat} {w w' : List Char} (h : Den r p w p' w') :
    ∀ caps, ∃ caps', { pos := p', rest := w', caps := caps' } ∈
      run r { pos := p, rest := w, caps := caps } := by
  induction h with
  | empty p w => intro caps; exact ⟨caps, by simp [run]⟩
  | lit a p w => intro caps; exact ⟨caps, by simp [run, eat]⟩
  | anyNotNL c p w hc => intro caps; exact ⟨caps, by simp [run, eat, hc]⟩
  | cls negated items c p w hc => intro caps; exact ⟨caps, by simp [run, eat, hc]⟩
  | bol w => intro caps; exact ⟨caps, by simp [run]⟩
  | eol p => intro caps; exact ⟨caps, by simp [run]⟩
  | cat _ _ iha ihb =>
    intro caps
    obtain ⟨c1, h1⟩ := iha caps
    obtain ⟨c2, h2⟩ := ihb c1
    exact ⟨c2, by simp only [run, List.mem_flatMap]; exact ⟨_, h1, h2⟩⟩
  | altLeft b _ iha =>
    intro caps
    obtain ⟨c1, h1⟩ := iha caps
    exact ⟨c1, by simp only [run, List.mem_append]; exact Or.inl h1⟩
  | altRight a _ ihb =>
    intro caps
    obtain ⟨c1, h1⟩ := ihb caps
    exact ⟨c1, by simp only [run, List.mem_append]; exact Or.inr h1⟩
  | starNil a p w =>
    intro caps
    refine ⟨caps, ?_⟩
    simp only [run]
    cases w with
    | nil => simp [starLoop]
    | cons c t => simp [starLoop]
  | @starCons a p w p₁ w₁ p₂ w₂ _ hlt _ iha ihs =>
    intro caps
    obtain ⟨c1, h1⟩ := iha caps
    obtain ⟨c2, h2⟩ := ihs c1
    refine ⟨c2, ?_⟩
    simp only [run] at h2 ⊢
    obtain ⟨n, hn⟩ : ∃ n, w.length = n + 1 := ⟨w.length - 1, by omega⟩
    rw [hn, starLoop]
    simp only [List.mem_append, List.mem_flatMap, List.mem_filter, decide_eq_true_eq]
    left
    refine ⟨_, ⟨h1, hlt⟩, ?_⟩
    rw [starLoop_fuel _ _ n (by simp; omega)]
    exact h2
  | @group a p w p₁ w₁ n _ iha =>
    intro caps
    obtain ⟨c1, h1⟩ := iha caps
    refine ⟨(n, w.take (p₁ - p)) :: c1, ?_⟩
    simp only [run, List.mem_map]
    exact ⟨_, h1, rfl⟩

theorem den_empty {p p' : Nat} {w w' : List Char} :
    Den .empty p w p' w' ↔ p' = p ∧ w' = w := by
  constructor
  · intro h; cases h; exact ⟨rfl, rfl⟩
  · rintro ⟨rfl, rfl⟩; exact Den.empty _ _

theorem den_lit {a : Char} {p p' : Nat} {w w' : List Char} :
    Den (.lit a) p w p' w' ↔ w = a :: w' ∧ p' = p + 1 := by
  constructor
  · intro h; cases h; exact ⟨rfl, rfl⟩
  · rintro ⟨rfl, rfl⟩; exact Den.lit _ _ _

theorem den_anyNotNL {p p' : Nat} {w w' : List Char} :
    Den .anyNotNL p w p' w' ↔ ∃ c, c ≠ '\n' ∧ w = c :: w' ∧ p' = p + 1 := by
  constructor
  · intro h; cases h with
    | anyNotNL c _ _ hc => exact ⟨c, hc, rfl, rfl⟩
  · rintro ⟨c, hc, rfl, rfl⟩; exact Den.anyNotNL _ _ _ hc

theorem den_cls {negated : Bool} {items : List ClassItem} {p p' : Nat} {w w' : List Char} :
    Den (.cls negated items) p w p' w' ↔
      ∃ c, classAccepts negated items c = true ∧ w = c :: w' ∧ p' = p + 1 := by
  constructor
  · intro h; cases h with
    | cls _ _ c _ _ hc => exact ⟨c, hc, rfl, rfl⟩
  · rintro ⟨c, hc, rfl, rfl⟩; exact Den.cls _ _ _ _ _ hc

theorem den_bol {p p' : Nat} {w w' : List Char} :
    Den .bol p w p' w' ↔ p = 0 ∧ p' = 0 ∧ w' = w := by
  constructor
  · intro h; cases h; exact ⟨rfl, rfl, rfl⟩
  · rintro ⟨rfl, rfl, rfl⟩; exact Den.bol _

theorem den_eol {p p' : Nat} {w w' : List Char} :
    Den .eol p w p' w' ↔ w = [] ∧ w' = [] ∧ p' = p := by
  constructor
  · intro h; cases h; exact ⟨rfl, rfl, rfl⟩
  · rintro ⟨rfl, rfl, rfl⟩; exact Den.eol _

theorem den_cat {a b : Regex} {p p' : Nat} {w w' : List Char} :
    Den (.cat a b) p w p' w' ↔ ∃ p₁ w₁, Den a p w p₁ w₁ ∧ Den b p₁ w₁ p' w' := by
  constructor
  · intro h; cases h with
    | cat ha hb => exact ⟨_, _, ha, hb⟩
  · rintro ⟨_, _, ha, hb⟩; exact Den.cat ha hb

theorem den_alt {a b : Regex} {p p' : Nat} {w w' : List Char} :
    Den (.alt a b) p w p' w' ↔ Den a p w p' w' ∨ Den b p w p' w' := by
  constructor
  · intro h; cases h with
    | altLeft _ ha => exact Or.inl ha
    | altRight _ hb => exact Or.inr hb
  · rintro (ha | hb)
    · exact Den.altLeft _ ha
    · exact Den.altRight _ hb

theorem den_group {n : Nat} {a : Regex} {p p' : Nat} {w w' : List Char} :
    Den (.group n a) p w p' w' ↔ Den a p w p' w' := by
  constructor
  · intro h; cases h with
    | group _ ha => exact ha
  · intro ha; exact Den.group _ ha

theorem den_star {a : Regex} {p p' : Nat} {w w' : List Char} :
    Den (.star a) p w p' w' ↔ (p' = p ∧ w' = w) ∨
      ∃ p₁ w₁, Den a p w p₁ w₁ ∧ w₁.length < w.length ∧ Den (.star a) p₁ w₁ p' w' := by
  constructor
  · intro h; cases h with
    | starNil => exact Or.inl ⟨rfl, rfl⟩
    | starCons ha hlt hs => exact Or.inr ⟨_, _, ha, hlt, hs⟩
  · rintro (⟨rfl, rfl⟩ | ⟨_, _, ha, hlt, hs⟩)
    · exact Den.starNil _ _ _
    · exact Den.starCons ha hlt hs

/-- A match consumes a piece at the front of the text ahead. -/
theorem den_consumes {r : Regex} {p p' : Nat} {w w' : List Char} (h : Den r p w p' w') :
    ∃ u, w = u ++ w' ∧ p' = p + u.length := by
  induction h with
  | empty | bol | eol | starNil => exact ⟨[], rfl, rfl⟩
  | lit a | anyNotNL a | cls _ _ a => exact ⟨[a], rfl, rfl⟩
  | cat _ _ iha ihb | starCons _ _ _ iha ihb =>
    obtain ⟨u, rfl, rfl⟩ := iha
    obtain ⟨v, rfl, rfl⟩ := ihb
    exact ⟨u ++ v, by simp, by simp; omega⟩
  | altLeft _ _ ih | altRight _ _ ih | group _ _ ih => exact ih

/-- The repeated dot matches exactly the runs free of line feeds. -/
theorem den_star_anyNotNL {p p' : Nat} {w w' : List Char} :
    Den (.star .anyNotNL) p w p' w' ↔ ∃ u, '\n' ∉ u ∧ w = u ++ w' ∧ p' = p + u.length := by
  constructor
  · intro h
    generalize hr : Regex.star .anyNotNL = r at h
    induction h with
    | starNil => exact ⟨[], by simp, rfl, rfl⟩
    | starCons ha _ _ _ ih =>
      cases hr
      obtain ⟨c, hc, rfl, rfl⟩ := den_anyNotNL.mp ha
      obtain ⟨u, hu, rfl, rfl⟩ := ih rfl
      refine ⟨c :: u, ?_, by simp, by simp; omega⟩
      simp only [List.mem_cons, not_or]
      exact ⟨fun h => hc h.symm, hu⟩
    | _ => cases hr
  · rintro ⟨u, hu, rfl, rfl⟩
    induction u generalizing p with
    | nil => simpa using Den.starNil _ _ _
    | cons c u ih =>
      simp only [List.mem_cons, not_or] at hu
      have h1 : Den .anyNotNL p (c :: (u ++ w')) (p + 1) (u ++ w') :=
        Den.anyNotNL _ _ _ (fun h => hu.1 h.symm)
      have h2 := ih (p := p + 1) hu.2
      have : p + (c :: u).length = p + 1 + u.length := by simp; omega
      rw [this]
      exact Den.starCons h1 (by simp) h2

/-- The matcher finds a match exactly when the declarative meaning has one. -/
theorem matchString_iff {r : Regex} {text : List Char} :
    MatchString r text = true ↔
      ∃ i, i ≤ text.length ∧ ∃ p' w', Den r i (text.drop i) p' w' := by
  unfold MatchString firstMatch matchAt
  simp only [List.findSome?_isSome_iff, List.mem_range, Option.isSome_map']
  constructor
  · rintro ⟨i, hi, h⟩
    refine ⟨i, by omega, ?_⟩
    cases hrun : run r { pos := i, rest := text.drop i, caps := [] } with
    | nil => simp [hrun] at h
    | cons s' l =>
      have := run_sound r _ s' (by rw [hrun]; exact List.mem_cons_self _ _)
      exact ⟨_, _, this⟩
  · rintro ⟨i, hi, p', w', h⟩
    refine ⟨i, by omega, ?_⟩
    obtain ⟨caps', hmem⟩ := run_complete h []
    cases hrun : run r { pos := i, rest := text.drop i, caps := [] } with
    | nil => rw [hrun] at hmem; simp at hmem
    | cons s' l => simp

theorem den_cat_lit {a : Char} {r : Regex} {p p' : Nat} {w w' : List Char} :
    Den (.cat (.lit a) r) p w p' w' ↔ ∃ t, w = a :: t ∧ Den r (p + 1) t p' w' := by
  simp only [den_cat, den_lit]
  constructor
  · rintro ⟨_, t, ⟨rfl, rfl⟩, h⟩; exact ⟨t, rfl, h⟩
  · rintro ⟨t, rfl, h⟩; exact ⟨_, t, ⟨rfl, rfl⟩, h⟩

theorem den_cat_bol {r : Regex} {p p' : Nat} {w w' : List Char} :
    Den (.cat .bol r) p w p' w' ↔ p = 0 ∧ Den r 0 w p' w' := by
  simp only [den_cat, den_bol]
  constructor
  · rintro ⟨_, _, ⟨rfl, rfl, rfl⟩, h⟩; exact ⟨rfl, h⟩
  · rintro ⟨rfl, h⟩; exact ⟨_, _, ⟨rfl, rfl, rfl⟩, h⟩

theorem den_cat_star_anyNotNL {r : Regex} {p p' : Nat} {w w' : List Char} :
    Den (.cat (.star .anyNotNL) r) p w p' w' ↔
      ∃ u t, '\n' ∉ u ∧ w = u ++ t ∧ Den r (p + u.length) t p' w' := by
  simp only [den_cat, den_star_anyNotNL]
  constructor
  · rintro ⟨_, t, ⟨u, hu, rfl, rfl⟩, h⟩; exact ⟨u, t, hu, rfl, h⟩
  · rintro ⟨u, t, hu, rfl, h⟩; exact ⟨_, t, ⟨u, hu, rfl, rfl⟩, h⟩

theorem den_cat_plus_anyNotNL {r : Regex} {p p' : Nat} {w w' : List Char} :
    Den (.cat (.cat .anyNotNL (.star .anyNotNL)) r) p w p' w' ↔
      ∃ u t, u ≠ [] ∧ '\n' ∉ u ∧ w = u ++ t ∧ Den r (p + u.length) t p' w' := by
  simp only [den_cat, den_star_anyNotNL, den_anyNotNL]
  constructor
  · rintro ⟨_, t, ⟨_, _, ⟨c, hc, rfl, rfl⟩, u, hu, rfl, rfl⟩, h⟩
    refine ⟨c :: u, t, by simp, ?_, by simp, ?_⟩
    · simp only [List.mem_cons, not_or]; exact ⟨fun h => hc h.symm, hu⟩
    · have : p + (c :: u).length = p + 1 + u.length := by simp; omega
      rw [this]; exact h
  · rintro ⟨u, t, hne, hu, rfl, h⟩
    cases u with
    | nil => exact absurd rfl hne
    | cons c u =>
      simp only [List.mem_cons, not_or] at hu
      have : p + (c :: u).length = p + 1 + u.length := by simp; omega
      rw [this] at h
      exact ⟨_, t, ⟨_, _, ⟨c, fun h => hu.1 h.symm, rfl, rfl⟩, u, hu.2, by simp, rfl⟩, h⟩

theorem den_cat_opt_lit {a : Char} {r : Regex} {p p' : Nat} {w w' : List Char} :
    Den (.cat (.alt (.lit a) .empty) r) p w p' w' ↔
      (∃ t, w = a :: t ∧ Den r (p + 1) t p' w') ∨ Den r p w p' w' := by
  simp only [den_cat, den_alt, den_lit, den_empty]
  constructor
  · rintro ⟨_, t, (⟨rfl, rfl⟩ | ⟨rfl, rfl⟩), h⟩
    · exact Or.inl ⟨t, rfl, h⟩
    · exact Or.inr h
  · rintro (⟨t, rfl, h⟩ | h)
    · exact ⟨_, t, Or.inl ⟨rfl, rfl⟩, h⟩
    · exact ⟨_, _, Or.inr ⟨rfl, rfl⟩, h⟩

theorem den_eol_end {p p' : Nat} {w w' : List Char} :
    Den (.cat .eol .empty) p w p' w' ↔ w = [] ∧ w' = [] ∧ p' = p := by
  simp only [den_cat, den_eol, den_empty]
  constructor
  · rintro ⟨_, _, ⟨rfl, rfl, rfl⟩, rfl, rfl⟩; exact ⟨rfl, rfl, rfl⟩
  · rintro ⟨rfl, rfl, rfl⟩; exact ⟨_, _, ⟨rfl, rfl, rfl⟩, rfl, rfl⟩

theorem compile_urlPattern : MustCompile (r"^https?://.+\..+$").toList = .ok urlRegex := by
  decide

theorem isUrl_eq (url : List Char) : IsUrl url = .ok (MatchString urlRegex url) := by
  unfold IsUrl
  simp only [compile_urlPattern]
  rfl

theorem matchString_urlRegex {url : List Char} :
    MatchString urlRegex url = true ↔
      ∃ scheme a b, (scheme = "http://".toList ∨ scheme = "https://".toList) ∧
        url = scheme ++ a ++ '.' :: b ∧ a ≠ [] ∧ b ≠ [] ∧ '\n' ∉ a ∧ '\n' ∉ b := by
  rw [matchString_iff]
  simp only [urlRegex, catList, den_cat_bol, den_cat_lit, den_cat_opt_lit, den_cat_plus_anyNotNL,
    den_eol_end]
  constructor
  · rintro ⟨i, _, p', w', rfl, t, h, _, rfl, _, rfl, _, rfl,
      (⟨_, rfl, _, rfl, _, rfl, _, rfl, u, _, hu, hnu, rfl, _, rfl, v, _, hv, hnv, rfl, rfl, _, _⟩ |
       ⟨_, rfl, _, rfl, _, rfl, u, _, hu, hnu, rfl, _, rfl, v, _, hv, hnv, rfl, rfl, _, _⟩)⟩
    · rw [List.drop_zero] at h
      exact ⟨"https://".toList, u, v, Or.inr rfl, by rw [h]; simp, hu, hv, hnu, hnv⟩
    · rw [List.drop_zero] at h
      exact ⟨"http://".toList, u, v, Or.inl rfl, by rw [h]; simp, hu, hv, hnu, hnv⟩
  · rintro ⟨scheme, a, b, (rfl | rfl), rfl, ha, hb, hna, hnb⟩
    · refine ⟨0, by simp, 0 + 1 + 1 + 1 + 1 + 1 + 1 + 1 + a.length + 1 + b.length, [], rfl,
        _, rfl, _, rfl, _, rfl, _, rfl, Or.inr ⟨_, rfl, _, rfl, _, rfl, a, _, ha, hna, ?_, _, rfl,
          b, [], hb, hnb, (List.append_nil b).symm, rfl, rfl, rfl⟩⟩
      simp
    · refine ⟨0, by simp, 0 + 1 + 1 + 1 + 1 + 1 + 1 + 1 + 1 + a.length + 1 + b.length, [], rfl,
        _, rfl, _, rfl, _, rfl, _, rfl, Or.inl ⟨_, rfl, _, rfl, _, rfl, _, rfl, a, _, ha, hna, ?_,
          _, rfl, b, [], hb, hnb, (List.append_nil b).symm, rfl, rfl, rfl⟩⟩
      simp

theorem ok_bind {α β : Type} (a : α) (f : α → Outcome β) : (Except.ok a >>= f) = f a := rfl

theorem pure_eq_ok {α : Type} (a : α) : (pure a : Outcome α) = .ok a := rfl


/-! ## Stripping at the last delimiter -/

theorem starLoop_caps {body : MState → List MState}
    (hbody : ∀ s s', s' ∈ body s → s'.caps = s.caps) :
    ∀ n s s', s' ∈ starLoop body n s → s'.caps = s.caps := by
  intro n
  induction n with
  | zero =>
    intro s s' h
    simp [starLoop] at h
    rw [h]
  | succ n ih =>
    intro s s' h
    simp only [starLoop, List.mem_append, List.mem_flatMap, List.mem_filter, List.mem_singleton,
      decide_eq_true_eq] at h
    rcases h with ⟨m, ⟨hm, _⟩, hs'⟩ | h
    · rw [ih _ _ hs', hbody _ _ hm]
    · rw [h]

/-- An expression without groups leaves the captures alone. -/
theorem run_caps : ∀ (r : Regex), groupFree r = true → ∀ (s s' : MState), s' ∈ run r s →
    s'.caps = s.caps := by
  intro r
  induction r with
  | empty => intro _ s s' h; simp [run] at h; rw [h]
  | lit a => intro _ s s' h; simp only [run, mem_eat] at h; obtain ⟨_, _, _, _, rfl⟩ := h; rfl
  | anyNotNL => intro _ s s' h; simp only [run, mem_eat] at h; obtain ⟨_, _, _, _, rfl⟩ := h; rfl
  | cls negated items =>
    intro _ s s' h; simp only [run, mem_eat] at h; obtain ⟨_, _, _, _, rfl⟩ := h; rfl
  | bol =>
    intro _ s s' h
    by_cases hp : s.pos = 0
    · simp [run, hp] at h; rw [h]
    · simp [run, hp] at h
  | eol =>
    intro _ s s' h
    cases hr : s.rest with
    | nil => simp [run, hr] at h; rw [h]
    | cons c t => simp [run, hr] at h
  | cat a b iha ihb =>
    intro hg s s' h
    simp only [groupFree, Bool.and_eq_true] at hg
    simp only [run, List.mem_flatMap] at h
    obtain ⟨m, hm, hs'⟩ := h
    rw [ihb hg.2 _ _ hs', iha hg.1 _ _ hm]
  | alt a b iha ihb =>
    intro hg s s' h
    simp only [groupFree, Bool.and_eq_true] at hg
    simp only [run, List.mem_append] at h
    rcases h with h | h
    · exact iha hg.1 _ _ h
    · exact ihb hg.2 _ _ h
  | star a iha =>
    intro hg s s' h
    simp only [groupFree] at hg
    simp only [run] at h
    exact starLoop_caps (iha hg) _ _ _ h
  | group n a _ => intro hg; simp [groupFree] at hg

theorem findSome?_single {α β : Type} (g : α → Option β) (x : α) :
    [x].findSome? g = g x := by
  cases h : g x <;> simp [List.findSome?_cons, h]

theorem run_anyNotNL_cons (p : Nat) (c : Char) (t : List Char) (caps : List (Nat × List Char))
    (hc : c ≠ '\n') :
    run .anyNotNL { pos := p, rest := c :: t, caps := caps } =
      [{ pos := p + 1, rest := t, caps := caps }] := by
  simp [run, eat, hc]

/-- Greedy search through `.*`: when the text ahead is `a`, the delimiter, then `b`, the
continuation fails everywhere inside `b` and succeeds at the delimiter, the first success
of the continuation is the one at this delimiter. -/
theorem starLoop_anyNotNL_findSome {β : Type} (g : MState → Option β) (d : Char)
    (b : List Char) (caps : List (Nat × List Char))
    (hfail : ∀ t : MState, t.caps = caps → t.rest <:+ b → g t = none) :
    ∀ (a : List Char) (p n : Nat), (a ++ d :: b).length ≤ n → '\n' ∉ a →
      (g { pos := p + a.length, rest := d :: b, caps := caps }).isSome = true →
      (starLoop (run .anyNotNL) n { pos := p, rest := a ++ d :: b, caps := caps }).findSome? g =
        g { pos := p + a.length, rest := d :: b, caps := caps } := by
  intro a
  induction a with
  | nil =>
    intro p n hn _ _
    obtain ⟨m, rfl⟩ : ∃ m, n = m + 1 := ⟨n - 1, by simp at hn; omega⟩
    simp only [List.nil_append, starLoop, List.findSome?_append, List.length_nil, Nat.add_zero]
    have hnone : (((run .anyNotNL { pos := p, rest := d :: b, caps := caps }).filter
        fun s' => decide (s'.rest.length < (d :: b).length)).flatMap
          (starLoop (run .anyNotNL) m)).findSome? g = none := by
      rw [List.findSome?_eq_none_iff]
      intro t ht
      simp only [List.mem_flatMap, List.mem_filter, run, mem_eat] at ht
      obtain ⟨s₁, ⟨⟨c, t', hr, _, rfl⟩, _⟩, ht⟩ := ht
      simp only [List.cons.injEq] at hr
      obtain ⟨rfl, rfl⟩ := hr
      have hcaps := starLoop_caps (fun s s' h => run_caps .anyNotNL rfl s s' h) _ _ _ ht
      have hden := starLoop_sound (fun s s' h => run_sound .anyNotNL s s' h) _ _ _ ht
      obtain ⟨u, hu, _⟩ := den_consumes hden
      exact hfail t hcaps ⟨u, hu.symm⟩
    rw [hnone, findSome?_single]
    simp
  | cons c a ih =>
    intro p n hn hnl hsome
    obtain ⟨m, rfl⟩ : ∃ m, n = m + 1 := ⟨n - 1, by simp at hn; omega⟩
    simp only [List.mem_cons, not_or] at hnl
    have hc : c ≠ '\n' := fun h => hnl.1 h.symm
    have hp : p + (c :: a).length = p + 1 + a.length := by simp; omega
    rw [hp] at hsome ⊢
    simp only [List.cons_append, starLoop, run_anyNotNL_cons _ _ _ _ hc, List.findSome?_append]
    have hflt : ([({ pos := p + 1, rest := a ++ d :: b, caps := caps } : MState)].filter
        fun s' => decide (s'.rest.length < (c :: (a ++ d :: b)).length)) =
          [{ pos := p + 1, rest := a ++ d :: b, caps := caps }] := by
      simp
    rw [hflt, List.flatMap_cons, List.flatMap_nil, List.append_nil,
      ih (p + 1) m (by simp at hn ⊢; omega) hnl.2 hsome]
    cases hg : g { pos := p + 1 + a.length, rest := d :: b, caps := caps } with
    | none => rw [hg] at hsome; simp at hsome
    | some x => simp

theorem run_cat_empty (a : Regex) (s : MState) : run (.cat a .empty) s = run a s := by
  have : run .empty = fun s => [s] := by funext s; simp [run]
  simp only [run, this, List.flatMap_singleton']

/-- An expression that begins with `^` can only match at offset zero. -/
theorem firstMatch_bol (r : Regex) (text : List Char) :
    firstMatch (.cat .bol r) text =
      (run r { pos := 0, rest := text, caps := [] }).head?.map fun s => (0, s) := by
  unfold firstMatch matchAt
  rw [List.range_succ_eq_map, List.findSome?_cons]
  have h0 : run (.cat .bol r) { pos := 0, rest := List.drop 0 text, caps := [] } =
      run r { pos := 0, rest := text, caps := [] } := by
    simp [run]
  have htail : ((List.range text.length).map Nat.succ).findSome? (fun i =>
      (run (.cat .bol r) { pos := i, rest := List.drop i text, caps := [] }).head?.map
        fun s => (i, s)) = none := by
    rw [List.findSome?_eq_none_iff]
    intro x hx
    simp only [List.mem_map] at hx
    obtain ⟨i, _, rfl⟩ := hx
    simp [run]
  rw [h0, htail]
  cases (run r { pos := 0, rest := text, caps := [] }).head? <;> rfl

theorem den_cat_cls_single {d : Char} {r : Regex} {p p' : Nat} {w w' : List Char} :
    Den (.cat (.cls false [.single d]) r) p w p' w' ↔
      ∃ t, w = d :: t ∧ Den r (p + 1) t p' w' := by
  simp only [den_cat, den_cls]
  constructor
  · rintro ⟨_, t, ⟨c, hc, rfl, rfl⟩, h⟩
    have : c = d := by simpa [classAccepts, ClassItem.contains] using hc
    subst this
    exact ⟨t, rfl, h⟩
  · rintro ⟨t, rfl, h⟩
    exact ⟨_, t, ⟨d, by simp [classAccepts, ClassItem.contains], rfl, rfl⟩, h⟩

theorem den_cat_group_star {n : Nat} {r : Regex} {p p' : Nat} {w w' : List Char} :
    Den (.cat (.group n (.cat (.star .anyNotNL) .empty)) r) p w p' w' ↔
      ∃ u t, '\n' ∉ u ∧ w = u ++ t ∧ Den r (p + u.length) t p' w' := by
  rw [den_cat]
  simp only [den_group, den_cat, den_star_anyNotNL, den_empty]
  constructor
  · rintro ⟨_, t, ⟨_, _, ⟨u, hu, rfl, rfl⟩, rfl, rfl⟩, h⟩; exact ⟨u, _, hu, rfl, h⟩
  · rintro ⟨u, t, hu, rfl, h⟩; exact ⟨_, t, ⟨_, _, ⟨u, hu, rfl, rfl⟩, rfl, rfl⟩, h⟩

theorem den_beforeRegex {d : Char} {p p' : Nat} {w w' : List Char} :
    Den (beforeRegex d) p w p' w' ↔
      p = 0 ∧ w' = [] ∧ ∃ a b, w = a ++ d :: b ∧ '\n' ∉ a ∧ '\n' ∉ b ∧
        p' = 0 + a.length + 1 + b.length := by
  simp only [beforeRegex, catList, den_cat_bol, den_cat_group_star, den_cat_cls_single,
    den_cat_star_anyNotNL, den_eol_end]
  constructor
  · rintro ⟨rfl, a, _, ha, rfl, _, rfl, b, _, hb, rfl, rfl, rfl, rfl⟩
    exact ⟨rfl, rfl, a, b, by simp, ha, hb, rfl⟩
  · rintro ⟨rfl, rfl, a, b, rfl, ha, hb, rfl⟩
    exact ⟨rfl, a, _, ha, rfl, _, rfl, b, [], hb, (List.append_nil b).symm, rfl, rfl, rfl⟩

theorem matchString_beforeRegex {d : Char} {url : List Char} :
    MatchString (beforeRegex d) url = true ↔
      ∃ a b, url = a ++ d :: b ∧ '\n' ∉ a ∧ '\n' ∉ b := by
  rw [matchString_iff]
  simp only [den_beforeRegex]
  constructor
  · rintro ⟨i, _, p', w', rfl, _, a, b, h, ha, hb, _⟩
    exact ⟨a, b, by simpa using h, ha, hb⟩
  · rintro ⟨a, b, rfl, ha, hb⟩
    exact ⟨0, by simp, _, [], rfl, rfl, a, b, rfl, ha, hb, rfl⟩

/-- Without a delimiter, or with a line feed, the pattern has no match. -/
theorem findStringSubmatch_beforeRegex_none {d : Char} {url : List Char} (hd : d ≠ '\n')
    (h : d ∉ url ∨ '\n' ∈ url) : FindStringSubmatch (beforeRegex d) url = none := by
  have hm : MatchString (beforeRegex d) url = false := by
    rw [Bool.eq_false_iff]
    intro hm
    obtain ⟨a, b, rfl, ha, hb⟩ := matchString_beforeRegex.mp hm
    rcases h with h | h
    · exact h (by simp)
    · simp only [List.mem_append, List.mem_cons] at h
      rcases h with h | h | h
      · exact ha h
      · exact hd h.symm
      · exact hb h
  unfold MatchString at hm
  unfold FindStringSubmatch
  cases hf : firstMatch (beforeRegex d) url with
  | none => rfl
  | some x => rw [hf] at hm; simp at hm

/-- With a delimiter and no line feed, group 1 is the text before the last delimiter. -/
theorem findStringSubmatch_beforeRegex_some {d : Char} {a b : List Char}
    (hb : d ∉ b) (hna : '\n' ∉ a) (hnb : '\n' ∉ b) :
    ∃ whole, FindStringSubmatch (beforeRegex d) (a ++ d :: b) = some [whole, a] := by
  let tail : Regex := .cat (.cls false [.single d]) (.cat (.star .anyNotNL) (.cat .eol .empty))
  have hshape : beforeRegex d =
      .cat .bol (.cat (.group 1 (.cat (.star .anyNotNL) .empty)) tail) := rfl
  have hnum : numSubexp (beforeRegex d) = 1 := by simp [hshape, numSubexp, tail]
  -- the continuation after group 1, as a function of the point reached by the repeated dot
  let g : MState → Option MState := fun t =>
    (run tail ⟨t.pos, t.rest, (1, (a ++ d :: b).take (t.pos - 0)) :: t.caps⟩).head?
  have hfail : ∀ t : MState, t.caps = [] → t.rest <:+ b → g t = none := by
    intro t _ hsuf
    show (run tail _).head? = none
    cases hr : t.rest with
    | nil => simp [tail, run, eat]
    | cons c t' =>
      have hc : c ≠ d := by
        intro hcd
        apply hb
        rw [← hcd]
        exact hsuf.subset (by rw [hr]; simp)
      simp [tail, run, eat, classAccepts, ClassItem.contains, hc]
  have hden : Den tail a.length (d :: b) (a.length + 1 + b.length) [] := by
    simp only [tail, den_cat_cls_single, den_cat_star_anyNotNL, den_eol_end]
    refine ⟨b, rfl, b, [], hnb, (List.append_nil b).symm, ?_⟩
    simp
  obtain ⟨caps', hmem⟩ := run_complete hden [(1, (a ++ d :: b).take (a.length - 0))]
  have hcaps := run_caps tail rfl _ _ hmem
  obtain ⟨s', hs'⟩ : ∃ s', g ⟨a.length, d :: b, []⟩ = some s' := by
    show ∃ s', (run tail _).head? = some s'
    cases hrun : run tail ⟨a.length, d :: b, [(1, (a ++ d :: b).take (a.length - 0))]⟩ with
    | nil => rw [hrun] at hmem; simp at hmem
    | cons s' l => exact ⟨s', rfl⟩
  have hs'caps : s'.caps = [(1, a)] := by
    have hin : s' ∈ run tail ⟨a.length, d :: b, [(1, (a ++ d :: b).take (a.length - 0))]⟩ :=
      List.mem_of_mem_head? hs'
    rw [run_caps tail rfl _ _ hin]
    simp
  have hfind := starLoop_anyNotNL_findSome g d b [] hfail a 0 (a ++ d :: b).length (le_refl _) hna
  rw [Nat.zero_add] at hfind
  have hhead : (run (.cat (.group 1 (.cat (.star .anyNotNL) .empty)) tail)
      ⟨0, a ++ d :: b, []⟩).head? = some s' := by
    rw [← hs', ← hfind (by rw [hs']; rfl)]
    show (((run (.cat (.star .anyNotNL) .empty) ⟨0, a ++ d :: b, []⟩).map
      fun t => (⟨t.pos, t.rest, (1, (a ++ d :: b).take (t.pos - 0)) :: t.caps⟩ : MState)).flatMap
        (run tail)).head? = _
    rw [run_cat_empty, List.head?_flatMap, List.findSome?_map]
    rfl
  refine ⟨((a ++ d :: b).drop 0).take (s'.pos - 0), ?_⟩
  unfold FindStringSubmatch
  rw [hnum, hshape, firstMatch_bol, hhead]
  simp [hs'caps, List.range_succ, List.lookup]

/-! ## Compiling the domain pattern -/

theorem not_meta_of_isLetterDigitHyphen {c : Char} (h : isLetterDigitHyphen c = true) :
    c ≠ '\\' ∧ c ≠ '.' ∧ c ≠ '^' ∧ c ≠ '$' ∧ c ≠ '[' ∧ c ≠ '(' ∧ c ≠ ')' ∧ c ≠ '|' ∧
      c ≠ '*' ∧ c ≠ '+' ∧ c ≠ '?' ∧ c ≠ '\x7b' := by
  refine ⟨?_, ?_, ?_, ?_, ?_, ?_, ?_, ?_, ?_, ?_, ?_, ?_⟩ <;>
    (rintro rfl; revert h; decide)

/-- A letter, digit or hyphen between atoms is parsed as a literal. -/
theorem step_literal (st : PState) (c : Char) (hc : isLetterDigitHyphen c = true)
    (hm : st.mode = .normal ∨ st.mode = .afterRepeat) :
    step st c = .ok (pushRe st (.lit c)) := by
  obtain ⟨h1, h2, h3, h4, h5, h6, h7, h8, h9, h10, h11, h12⟩ :=
    not_meta_of_isLetterDigitHyphen hc
  rcases hm with hm | hm <;>
    simp [step, hm, stepNormal, h1, h2, h3, h4, h5, h6, h7, h8, h9, h10, h11, h12]

theorem foldlM_step_literals :
    ∀ (l : List Char) (st : PState), (∀ c ∈ l, isLetterDigitHyphen c = true) →
      (st.mode = .normal ∨ st.mode = .afterRepeat) →
      ∃ m, (m = .normal ∨ m = .afterRepeat) ∧
        l.foldlM step st =
          .ok { stack := (l.reverse.map fun c => Item.re (.lit c)) ++ st.stack, mode := m,
                ncap := st.ncap } := by
  intro l
  induction l with
  | nil => intro st _ hm; exact ⟨st.mode, hm, rfl⟩
  | cons c l ih =>
    intro st hl hm
    have hc : isLetterDigitHyphen c = true := hl c (List.mem_cons_self _ _)
    obtain ⟨m, hm', h⟩ := ih (pushRe st (.lit c)) (fun x hx => hl x (List.mem_cons_of_mem _ hx))
      (Or.inl rfl)
    refine ⟨m, hm', ?_⟩
    rw [List.foldlM_cons, step_literal st c hc hm, ok_bind, h]
    simp [pushRe]

theorem popRun_append (rs : List Regex) (st : List Item) (acc : List Regex) :
    popRun (rs.map Item.re ++ st) acc = popRun st (rs.reverse ++ acc) := by
  induction rs generalizing acc with
  | nil => rfl
  | cons r rs ih => simp [popRun, ih]

theorem foldlM_step_strictPrefix :
    (r"^https?:\/\/(www\.)?").toList.foldlM step { stack := [], mode := .normal, ncap := 0 } =
      .ok { stack := ([Regex.alt (.group 1 (catList [.lit 'w', .lit 'w', .lit 'w', .lit '.'])) .empty,
                .lit '/', .lit '/', .lit ':', .alt (.lit 's') .empty, .lit 'p', .lit 't', .lit 't',
                .lit 'h', .bol]).map Item.re,
            mode := .afterRepeat, ncap := 1 } := by
  decide

theorem foldlM_step_permissivePrefix :
    (r"^https?:\/\/([-\w\d]+\.)*").toList.foldlM step { stack := [], mode := .normal, ncap := 0 } =
      .ok { stack := ([Regex.star (.group 1 (catList [.cat subdomainClass (.star subdomainClass),
                  .lit '.'])),
                .lit '/', .lit '/', .lit ':', .alt (.lit 's') .empty, .lit 'p', .lit 't', .lit 't',
                .lit 'h', .bol]).map Item.re,
            mode := .afterRepeat, ncap := 1 } := by
  decide

/-- From a point between atoms whose stack holds expressions only, the rest of the domain
pattern (the two labels with the escaped dot, then `\/.*$`) parses to the expected
concatenation. -/
theorem foldlM_step_domainTail (rs : List Regex) (m : Mode) (n : Nat) (l₁ l₂ : List Char)
    (hm : m = .normal ∨ m = .afterRepeat)
    (h₁ : ∀ c ∈ l₁, isLetterDigitHyphen c = true) (h₂ : ∀ c ∈ l₂, isLetterDigitHyphen c = true) :
    ((l₁ ++ (r"\.").toList ++ l₂) ++ (r"\/.*$").toList).foldlM step
        { stack := rs.map Item.re, mode := m, ncap := n } >>= finish =
      .ok (catList (rs.reverse ++ l₁.map Regex.lit ++ [Regex.lit '.'] ++ l₂.map Regex.lit ++
        [Regex.lit '/', Regex.star .anyNotNL, Regex.eol])) := by
  obtain ⟨m₁, hm₁, e₁⟩ := foldlM_step_literals l₁ { stack := rs.map Item.re, mode := m, ncap := n }
    h₁ hm
  dsimp only at e₁
  have e₂ : (r"\.").toList.foldlM step
      { stack := (l₁.reverse.map fun c => Item.re (.lit c)) ++ rs.map Item.re, mode := m₁,
        ncap := n } =
      .ok { stack := Item.re (.lit '.') :: ((l₁.reverse.map fun c => Item.re (.lit c)) ++
              rs.map Item.re), mode := .normal, ncap := n } := by
    rcases hm₁ with rfl | rfl <;> rfl
  obtain ⟨m₃, hm₃, e₃⟩ := foldlM_step_literals l₂
    { stack := Item.re (.lit '.') :: ((l₁.reverse.map fun c => Item.re (.lit c)) ++
        rs.map Item.re), mode := .normal, ncap := n } h₂ (Or.inl rfl)
  dsimp only at e₃
  have e₄ : ∀ st : List Item, (r"\/.*$").toList.foldlM step
      { stack := st, mode := m₃, ncap := n } =
      .ok { stack := Item.re .eol :: Item.re (.star .anyNotNL) :: Item.re (.lit '/') :: st,
            mode := .normal, ncap := n } := by
    intro st
    rcases hm₃ with rfl | rfl <;> rfl
  simp only [List.foldlM_append, e₁, e₂, e₃, e₄, ok_bind, bind_assoc]
  have hstack : Item.re .eol :: Item.re (.star .anyNotNL) :: Item.re (.lit '/') ::
      ((l₂.reverse.map fun c => Item.re (.lit c)) ++ Item.re (.lit '.') ::
        ((l₁.reverse.map fun c => Item.re (.lit c)) ++ rs.map Item.re)) =
      ([Regex.eol, Regex.star .anyNotNL, Regex.lit '/'] ++ l₂.reverse.map Regex.lit ++
        [Regex.lit '.'] ++ l₁.reverse.map Regex.lit ++ rs).map Item.re ++ [] := by
    simp
    rfl
  simp only [finish, collapse, hstack, popRun_append, popAlts]
  simp [popRun]

theorem not_dot_of_isLetterDigitHyphen {l : List Char}
    (h : ∀ c ∈ l, isLetterDigitHyphen c = true) : '.' ∉ l := by
  intro hmem
  exact absurd (h _ hmem) (by decide)

theorem replace_of_not_mem {l : List Char} {old : Char} (new : List Char) (h : old ∉ l) :
    Replace l old new = l := by
  induction l with
  | nil => rfl
  | cons c l ih =>
    simp only [List.mem_cons, not_or] at h
    have hc : c ≠ old := fun e => h.1 e.symm
    have := ih h.2
    simp only [Replace] at this ⊢
    simp [hc, this]

theorem replace_append (a b : List Char) (old : Char) (new : List Char) :
    Replace (a ++ b) old new = Replace a old new ++ Replace b old new := by
  simp [Replace]

theorem replace_join_two {l₁ l₂ : List Char} (h₁ : '.' ∉ l₁) (h₂ : '.' ∉ l₂) :
    Replace (Join [l₁, l₂] ".".toList) '.' (r"\.").toList = l₁ ++ (r"\.").toList ++ l₂ := by
  have hj : Join [l₁, l₂] ".".toList = l₁ ++ ['.'] ++ l₂ := rfl
  rw [hj, replace_append, replace_append, replace_of_not_mem _ h₁, replace_of_not_mem _ h₂]
  rfl

/-- The domain pattern built from two labels of letters, digits and hyphens compiles, and
to the expected expression. -/
theorem compile_domainPattern (includeSubdomains : Bool) (l₁ l₂ : List Char)
    (h₁ : ∀ c ∈ l₁, isLetterDigitHyphen c = true) (h₂ : ∀ c ∈ l₂, isLetterDigitHyphen c = true) :
    MustCompile
        ((if includeSubdomains then (r"^https?:\/\/([-\w\d]+\.)*").toList
          else (r"^https?:\/\/(www\.)?").toList) ++
          Replace (Join [l₁, l₂] ".".toList) '.' (r"\.").toList ++ (r"\/.*$").toList) =
      .ok (domainRegex includeSubdomains l₁ l₂) := by
  rw [replace_join_two (not_dot_of_isLetterDigitHyphen h₁) (not_dot_of_isLetterDigitHyphen h₂),
    List.append_assoc]
  unfold MustCompile
  rw [List.foldlM_append]
  cases includeSubdomains with
  | false =>
    simp only [Bool.false_eq_true, if_false, foldlM_step_strictPrefix, ok_bind]
    rw [foldlM_step_domainTail _ _ _ l₁ l₂ (Or.inr rfl) h₁ h₂]
    rfl
  | true =>
    simp only [if_true, foldlM_step_permissivePrefix, ok_bind]
    rw [foldlM_step_domainTail _ _ _ l₁ l₂ (Or.inr rfl) h₁ h₂]
    rfl

theorem split_of_not_mem {l : List Char} {sep : Char} (h : sep ∉ l) : Split l sep = [l] := by
  induction l with
  | nil => rfl
  | cons c l ih =>
    simp only [List.mem_cons, not_or] at h
    have hc : c ≠ sep := fun e => h.1 e.symm
    simp [Split, hc, ih h.2]

theorem split_append_sep {l : List Char} {sep : Char} (rest : List Char) (h : sep ∉ l) :
    Split (l ++ sep :: rest) sep = l :: Split rest sep := by
  induction l with
  | nil => simp [Split]
  | cons c l ih =>
    simp only [List.mem_cons, not_or] at h
    have hc : c ≠ sep := fun e => h.1 e.symm
    simp [Split, hc, ih h.2]

/-- Splitting at the separator undoes joining pieces that are free of it. -/
theorem split_join (sep : Char) :
    ∀ (ps : List (List Char)), ps ≠ [] → (∀ p ∈ ps, sep ∉ p) → Split (Join ps [sep]) sep = ps := by
  intro ps
  induction ps with
  | nil => intro h; exact absurd rfl h
  | cons p ps ih =>
    intro _ hps
    cases ps with
    | nil => exact split_of_not_mem (hps p (List.mem_cons_self _ _))
    | cons q qs =>
      have : Join (p :: q :: qs) [sep] = p ++ sep :: Join (q :: qs) [sep] := by
        simp [Join]
      rw [this, split_append_sep _ (hps p (List.mem_cons_self _ _)),
        ih (by simp) (fun x hx => hps x (List.mem_cons_of_mem _ hx))]

theorem slice_lastTwo {α : Type} (pre : List α) (x y : α) :
    slice (pre ++ [x, y]) (((pre ++ [x, y]).length : Int) - 2) (pre ++ [x, y]).length =
      .ok [x, y] := by
  have hlen : ((pre ++ [x, y]).length : Int) - 2 = (pre.length : Int) := by
    simp
  simp only [slice]
  rw [if_pos (by rw [hlen]; simp), hlen, Int.toNat_ofNat, Int.toNat_ofNat, List.take_length]
  simp

theorem filterSlice_eq_filter (xs : List (List Char)) (predicate : List Char → Bool) :
    FilterSlice xs predicate = xs.filter predicate := by
  have : ∀ (acc : List (List Char)),
      xs.foldl (fun filtered s => if predicate s then filtered ++ [s] else filtered) acc =
        acc ++ xs.filter predicate := by
    induction xs with
    | nil => intro acc; simp
    | cons x xs ih =>
      intro acc
      by_cases hx : predicate x = true
      · simp [List.foldl_cons, hx, ih, List.filter_cons]
      · simp [List.foldl_cons, hx, ih, List.filter_cons]
  simpa [FilterSlice] using this []

/-- `FilterLinksNotInDomain` on a reference domain whose last two labels are letters, digits
and hyphens: no panic, and the links kept are those the compiled pattern matches. -/
theorem filterLinksNotInDomain_eq (labels : List (List Char)) (l₁ l₂ : List Char)
    (links : List (List Char)) (includeSubdomains : Bool)
    (hlabels : ∀ l ∈ labels, '.' ∉ l)
    (h₁ : ∀ c ∈ l₁, isLetterDigitHyphen c = true) (h₂ : ∀ c ∈ l₂, isLetterDigitHyphen c = true) :
    FilterLinksNotInDomain (Join (labels ++ [l₁, l₂]) ".".toList) links includeSubdomains =
      .ok (links.filter (MatchString (domainRegex includeSubdomains l₁ l₂))) := by
  have hsplit : Split (Join (labels ++ [l₁, l₂]) ".".toList) '.' = labels ++ [l₁, l₂] := by
    apply split_join '.' _ (by simp)
    intro p hp
    simp only [List.mem_append, List.mem_cons, List.mem_singleton, List.not_mem_nil,
      or_false] at hp
    rcases hp with hp | rfl | rfl
    · exact hlabels p hp
    · exact not_dot_of_isLetterDigitHyphen h₁
    · exact not_dot_of_isLetterDigitHyphen h₂
  unfold FilterLinksNotInDomain
  simp only [hsplit, slice_lastTwo, ok_bind]
  have hc := compile_domainPattern includeSubdomains l₁ l₂ h₁ h₂
  cases includeSubdomains with
  | false =>
    simp only [Bool.false_eq_true, if_false] at hc ⊢
    rw [hc, ok_bind, pure_eq_ok, filterSlice_eq_filter]
  | true =>
    simp only [if_true] at hc ⊢
    rw [hc, ok_bind, pure_eq_ok, filterSlice_eq_filter]

/-! ## Meaning of the domain pattern -/

theorem den_cat_alt_empty {a r : Regex} {p p' : Nat} {w w' : List Char} :
    Den (.cat (.alt a .empty) r) p w p' w' ↔ Den (.cat a r) p w p' w' ∨ Den r p w p' w' := by
  simp only [den_cat, den_alt, den_empty]
  constructor
  · rintro ⟨p₁, w₁, (h | ⟨rfl, rfl⟩), hr⟩
    · exact Or.inl ⟨p₁, w₁, h, hr⟩
    · exact Or.inr hr
  · rintro (⟨p₁, w₁, h, hr⟩ | hr)
    · exact ⟨p₁, w₁, Or.inl h, hr⟩
    · exact ⟨_, _, Or.inr ⟨rfl, rfl⟩, hr⟩

theorem den_cat_group {n : Nat} {a r : Regex} {p p' : Nat} {w w' : List Char} :
    Den (.cat (.group n a) r) p w p' w' ↔ Den (.cat a r) p w p' w' := by
  simp only [den_cat, den_group]

theorem den_cat_assoc {a b r : Regex} {p p' : Nat} {w w' : List Char} :
    Den (.cat (.cat a b) r) p w p' w' ↔ Den (.cat a (.cat b r)) p w p' w' := by
  simp only [den_cat]
  constructor
  · rintro ⟨p₂, w₂, ⟨p₁, w₁, ha, hb⟩, hr⟩; exact ⟨p₁, w₁, ha, p₂, w₂, hb, hr⟩
  · rintro ⟨p₁, w₁, ha, p₂, w₂, hb, hr⟩; exact ⟨p₂, w₂, ⟨p₁, w₁, ha, hb⟩, hr⟩

theorem den_cat_empty_left {r : Regex} {p p' : Nat} {w w' : List Char} :
    Den (.cat .empty r) p w p' w' ↔ Den r p w p' w' := by
  simp only [den_cat, den_empty]
  constructor
  · rintro ⟨_, _, ⟨rfl, rfl⟩, hr⟩; exact hr
  · intro hr; exact ⟨_, _, ⟨rfl, rfl⟩, hr⟩

theorem catList_cons (r : Regex) (rs : List Regex) : catList (r :: rs) = .cat r (catList rs) :=
  rfl

/-- A run of literals in front of a concatenation consumes exactly that text. -/
theorem den_catList_lits (l : List Char) (rs : List Regex) {p p' : Nat} {w w' : List Char} :
    Den (catList (l.map Regex.lit ++ rs)) p w p' w' ↔
      ∃ t, w = l ++ t ∧ Den (catList rs) (p + l.length) t p' w' := by
  induction l generalizing p w with
  | nil => simp
  | cons c l ih =>
    rw [List.map_cons, List.cons_append, catList_cons, den_cat_lit]
    simp only [ih]
    constructor
    · rintro ⟨_, rfl, t, rfl, h⟩
      refine ⟨t, rfl, ?_⟩
      have : p + (c :: l).length = p + 1 + l.length := by simp; omega
      rw [this]; exact h
    · rintro ⟨t, rfl, h⟩
      have : p + (c :: l).length = p + 1 + l.length := by simp; omega
      rw [this] at h
      exact ⟨_, rfl, t, rfl, h⟩

/-- The part of the domain pattern after the sub-domain part: the two labels around a dot,
a slash, then anything without a line feed up to the end. -/
theorem den_domainTail (l₁ l₂ : List Char) {p p' : Nat} {w w' : List Char} :
    Den (catList (l₁.map Regex.lit ++ [Regex.lit '.'] ++ l₂.map Regex.lit ++
        [Regex.lit '/', Regex.star .anyNotNL, Regex.eol])) p w p' w' ↔
      ∃ rest, '\n' ∉ rest ∧ w = l₁ ++ '.' :: l₂ ++ '/' :: rest ∧ w' = [] ∧
        p' = p + l₁.length + 1 + l₂.length + 1 + rest.length := by
  rw [List.append_assoc, List.append_assoc, den_catList_lits]
  simp only [List.singleton_append, catList_cons, den_cat_lit, den_catList_lits,
    den_cat_star_anyNotNL]
  simp only [catList, den_eol_end]
  constructor
  · rintro ⟨_, rfl, _, rfl, _, rfl, _, rfl, rest, _, hr, rfl, rfl, rfl, rfl⟩
    exact ⟨rest, hr, by simp, rfl, rfl⟩
  · rintro ⟨rest, hr, rfl, rfl, rfl⟩
    exact ⟨_, by simp, _, rfl, _, rfl, _, rfl, rest, [], hr, (List.append_nil rest).symm, rfl,
      rfl, rfl⟩

/-- The common head of the URL patterns: `^https?://`. -/
theorem den_scheme {r : Regex} {p p' : Nat} {w w' : List Char} :
    Den (.cat .bol (.cat (.lit 'h') (.cat (.lit 't') (.cat (.lit 't') (.cat (.lit 'p')
      (.cat (.alt (.lit 's') .empty) (.cat (.lit ':') (.cat (.lit '/')
        (.cat (.lit '/') r))))))))) p w p' w' ↔
      p = 0 ∧ ∃ scheme t, (scheme = "http://".toList ∨ scheme = "https://".toList) ∧
        w = scheme ++ t ∧ Den r scheme.length t p' w' := by
  simp only [den_cat_bol, den_cat_lit, den_cat_opt_lit]
  constructor
  · rintro ⟨rfl, _, rfl, _, rfl, _, rfl, _, rfl,
      (⟨_, rfl, _, rfl, _, rfl, t, rfl, h⟩ | ⟨_, rfl, _, rfl, t, rfl, h⟩)⟩
    · exact ⟨rfl, "https://".toList, t, Or.inr rfl, rfl, h⟩
    · exact ⟨rfl, "http://".toList, t, Or.inl rfl, rfl, h⟩
  · rintro ⟨rfl, scheme, t, (rfl | rfl), rfl, h⟩
    · exact ⟨rfl, _, rfl, _, rfl, _, rfl, _, rfl, Or.inr ⟨_, rfl, _, rfl, t, rfl, h⟩⟩
    · exact ⟨rfl, _, rfl, _, rfl, _, rfl, _, rfl, Or.inl ⟨_, rfl, _, rfl, _, rfl, t, rfl, h⟩⟩

theorem domainRegex_strict_shape (l₁ l₂ : List Char) :
    domainRegex false l₁ l₂ =
      .cat .bol (.cat (.lit 'h') (.cat (.lit 't') (.cat (.lit 't') (.cat (.lit 'p')
        (.cat (.alt (.lit 's') .empty) (.cat (.lit ':') (.cat (.lit '/') (.cat (.lit '/')
          (.cat (.alt (.group 1 (.cat (.lit 'w') (.cat (.lit 'w') (.cat (.lit 'w')
              (.cat (.lit '.') .empty))))) .empty)
            (catList (l₁.map Regex.lit ++ [Regex.lit '.'] ++ l₂.map Regex.lit ++
              [Regex.lit '/', Regex.star .anyNotNL, Regex.eol]))))))))))) := by
  rfl

/-- What the strict domain pattern matches. -/
theorem matchString_domainRegex_strict (l₁ l₂ link : List Char) :
    MatchString (domainRegex false l₁ l₂) link = true ↔
      ∃ scheme www rest, (scheme = "http://".toList ∨ scheme = "https://".toList) ∧
        (www = [] ∨ www = "www.".toList) ∧ '\n' ∉ rest ∧
        link = scheme ++ www ++ (l₁ ++ ".".toList ++ l₂) ++ "/".toList ++ rest := by
  rw [matchString_iff, domainRegex_strict_shape]
  simp only [den_scheme, den_cat_lit, den_cat_alt_empty, den_cat_group, den_cat_assoc,
    den_cat_empty_left, den_domainTail]
  constructor
  · rintro ⟨i, _, p', w', rfl, scheme, t, hs, h,
      (⟨_, rfl, _, rfl, _, rfl, _, rfl, rest, hr, rfl, _, _⟩ | ⟨rest, hr, rfl, _, _⟩)⟩
    · refine ⟨scheme, "www.".toList, rest, hs, Or.inr rfl, hr, ?_⟩
      rw [List.drop_zero] at h
      rw [h]; simp
    · refine ⟨scheme, [], rest, hs, Or.inl rfl, hr, ?_⟩
      rw [List.drop_zero] at h
      rw [h]; simp
  · rintro ⟨scheme, www, rest, hs, (rfl | rfl), hr, rfl⟩
    · exact ⟨0, by simp, _, [], rfl, scheme, _, hs, by simp,
        Or.inr ⟨rest, hr, rfl, rfl, rfl⟩⟩
    · exact ⟨0, by simp, _, [], rfl, scheme, _, hs, by simp,
        Or.inl ⟨_, rfl, _, rfl, _, rfl, _, rfl, rest, hr, rfl, rfl, rfl⟩⟩

theorem classAccepts_subdomain (c : Char) :
    classAccepts false [.single '-', .word, .digit] c = isSubdomainChar c := by
  simp only [classAccepts, ClassItem.contains, isSubdomainChar, Char.isAlphanum, List.any_cons,
    List.any_nil, Bool.false_xor]
  cases c.isAlpha <;> cases c.isDigit <;> cases (c == '-') <;> cases (c == '_') <;> rfl

theorem den_subdomainClass {p p' : Nat} {w w' : List Char} :
    Den subdomainClass p w p' w' ↔
      ∃ c, isSubdomainChar c = true ∧ w = c :: w' ∧ p' = p + 1 := by
  simp only [subdomainClass, den_cls, classAccepts_subdomain]

/-- Repetition of a one-code-point expression matches the runs of accepted code points. -/
theorem den_star_atom {r : Regex} {test : Char → Bool}
    (hr : ∀ {p p' : Nat} {w w' : List Char},
      Den r p w p' w' ↔ ∃ c, test c = true ∧ w = c :: w' ∧ p' = p + 1)
    {p p' : Nat} {w w' : List Char} :
    Den (.star r) p w p' w' ↔
      ∃ u, (∀ c ∈ u, test c = true) ∧ w = u ++ w' ∧ p' = p + u.length := by
  constructor
  · intro h
    generalize hs : Regex.star r = s at h
    induction h with
    | starNil => exact ⟨[], by simp, rfl, rfl⟩
    | starCons ha _ _ _ ih =>
      cases hs
      obtain ⟨c, hc, rfl, rfl⟩ := hr.mp ha
      obtain ⟨u, hu, rfl, rfl⟩ := ih rfl
      refine ⟨c :: u, ?_, by simp, by simp; omega⟩
      intro x hx
      rcases List.mem_cons.mp hx with rfl | hx
      · exact hc
      · exact hu x hx
    | _ => cases hs
  · rintro ⟨u, hu, rfl, rfl⟩
    induction u generalizing p with
    | nil => simpa using Den.starNil _ _ _
    | cons c u ih =>
      have h1 : Den r p (c :: (u ++ w')) (p + 1) (u ++ w') :=
        hr.mpr ⟨c, hu c (List.mem_cons_self _ _), rfl, rfl⟩
      have h2 := ih (p := p + 1) (fun x hx => hu x (List.mem_cons_of_mem _ hx))
      have : p + (c :: u).length = p + 1 + u.length := by simp; omega
      rw [this]
      exact Den.starCons h1 (by simp) h2

/-- One sub-domain label of the permissive pattern: `[-\w\d]+\.`. -/
theorem den_subdomainLabel {p p' : Nat} {w w' : List Char} :
    Den (.group 1 (.cat (.cat subdomainClass (.star subdomainClass)) (.cat (.lit '.') .empty)))
        p w p' w' ↔
      ∃ l, l ≠ [] ∧ (∀ c ∈ l, isSubdomainChar c = true) ∧ w = l ++ '.' :: w' ∧
        p' = p + l.length + 1 := by
  simp only [den_group, den_cat, den_lit, den_empty, den_subdomainClass,
    den_star_atom den_subdomainClass]
  constructor
  · rintro ⟨_, _, ⟨_, _, ⟨c, hc, rfl, rfl⟩, u, hu, rfl, rfl⟩, _, _, ⟨rfl, rfl⟩, rfl, rfl⟩
    refine ⟨c :: u, by simp, ?_, by simp, by simp; omega⟩
    intro x hx
    rcases List.mem_cons.mp hx with rfl | hx
    · exact hc
    · exact hu x hx
  · rintro ⟨l, hl, hall, rfl, rfl⟩
    cases l with
    | nil => exact absurd rfl hl
    | cons c u =>
      have hlen : p + (c :: u).length + 1 = p + 1 + u.length + 1 := by simp; omega
      rw [hlen]
      exact ⟨_, _, ⟨_, _, ⟨c, hall c (List.mem_cons_self _ _), rfl, rfl⟩, u,
        fun x hx => hall x (List.mem_cons_of_mem _ hx), rfl, rfl⟩, _, _, ⟨rfl, rfl⟩, rfl, rfl⟩

/-- The sub-domain part of the permissive pattern: any number of labels, each followed by
a dot. -/
theorem den_star_subdomainLabel {p p' : Nat} {w w' : List Char} :
    Den (.star (.group 1 (.cat (.cat subdomainClass (.star subdomainClass))
        (.cat (.lit '.') .empty)))) p w p' w' ↔
      ∃ subs : List (List Char), (∀ s ∈ subs, s ≠ [] ∧ ∀ c ∈ s, isSubdomainChar c = true) ∧
        w = (subs.map fun s => s ++ ".".toList).flatten ++ w' ∧
        p' = p + (subs.map fun s => s ++ ".".toList).flatten.length := by
  constructor
  · intro h
    generalize hs : Regex.star (.group 1 (.cat (.cat subdomainClass (.star subdomainClass))
        (.cat (.lit '.') .empty))) = s at h
    induction h with
    | starNil => exact ⟨[], by simp, rfl, rfl⟩
    | starCons ha _ _ _ ih =>
      cases hs
      obtain ⟨l, hl, hall, rfl, rfl⟩ := den_subdomainLabel.mp ha
      obtain ⟨subs, hsubs, rfl, rfl⟩ := ih rfl
      refine ⟨l :: subs, ?_, by simp, by simp; omega⟩
      intro x hx
      rcases List.mem_cons.mp hx with rfl | hx
      · exact ⟨hl, hall⟩
      · exact hsubs x hx
    | _ => cases hs
  · rintro ⟨subs, hsubs, rfl, rfl⟩
    induction subs generalizing p with
    | nil => simpa using Den.starNil _ _ _
    | cons l subs ih =>
      obtain ⟨hl, hall⟩ := hsubs l (List.mem_cons_self _ _)
      have h1 : Den (.group 1 (.cat (.cat subdomainClass (.star subdomainClass))
          (.cat (.lit '.') .empty))) p
          (l ++ '.' :: ((subs.map fun s => s ++ ".".toList).flatten ++ w')) (p + l.length + 1)
          ((subs.map fun s => s ++ ".".toList).flatten ++ w') :=
        den_subdomainLabel.mpr ⟨l, hl, hall, rfl, rfl⟩
      have h2 := ih (p := p + l.length + 1) (fun x hx => hsubs x (List.mem_cons_of_mem _ hx))
      have hlen : p + ((l :: subs).map fun s => s ++ ".".toList).flatten.length =
          p + l.length + 1 + (subs.map fun s => s ++ ".".toList).flatten.length := by
        simp; omega
      have hw : ((l :: subs).map fun s => s ++ ".".toList).flatten ++ w' =
          l ++ '.' :: ((subs.map fun s => s ++ ".".toList).flatten ++ w') := by
        simp
      rw [hlen, hw]
      exact Den.starCons h1 (by simp; omega) h2

theorem domainRegex_permissive_shape (l₁ l₂ : List Char) :
    domainRegex true l₁ l₂ =
      .cat .bol (.cat (.lit 'h') (.cat (.lit 't') (.cat (.lit 't') (.cat (.lit 'p')
        (.cat (.alt (.lit 's') .empty) (.cat (.lit ':') (.cat (.lit '/') (.cat (.lit '/')
          (.cat (.star (.group 1 (.cat (.cat subdomainClass (.star subdomainClass))
              (.cat (.lit '.') .empty))))
            (catList (l₁.map Regex.lit ++ [Regex.lit '.'] ++ l₂.map Regex.lit ++
              [Regex.lit '/', Regex.star .anyNotNL, Regex.eol]))))))))))) := by
  rfl

/-- What the permissive domain pattern matches. -/
theorem matchString_domainRegex_permissive (l₁ l₂ link : List Char) :
    MatchString (domainRegex true l₁ l₂) link = true ↔
      ∃ (scheme : List Char) (subs : List (List Char)) (rest : List Char),
        (scheme = "http://".toList ∨ scheme = "https://".toList) ∧
        (∀ s ∈ subs, s ≠ [] ∧ ∀ c ∈ s, isSubdomainChar c = true) ∧ '\n' ∉ rest ∧
        link = scheme ++ (subs.map fun s => s ++ ".".toList).flatten ++
          (l₁ ++ ".".toList ++ l₂) ++ "/".toList ++ rest := by
  rw [matchString_iff, domainRegex_permissive_shape]
  simp only [den_scheme, den_cat (a := Regex.star _), den_star_subdomainLabel, den_domainTail]
  constructor
  · rintro ⟨i, _, p', w', rfl, scheme, t, hs, h, _, _, ⟨subs, hsubs, rfl, rfl⟩,
      rest, hr, rfl, _, _⟩
    refine ⟨scheme, subs, rest, hs, hsubs, hr, ?_⟩
    rw [List.drop_zero] at h
    rw [h]; simp
  · rintro ⟨scheme, subs, rest, hs, hsubs, hr, rfl⟩
    exact ⟨0, by simp, _, [], rfl, scheme,
      (subs.map fun s => s ++ ".".toList).flatten ++ (l₁ ++ '.' :: l₂ ++ '/' :: rest), hs,
      by simp, _, l₁ ++ '.' :: l₂ ++ '/' :: rest, ⟨subs, hsubs, rfl, rfl⟩,
      rest, hr, rfl, rfl, rfl⟩

/-! ## Suffixes of mapped strings -/

theorem suffix_map_iff {f : Char → Char} {e s : List Char} :
    e <:+ s.map f ↔ ∃ t, t <:+ s ∧ t.map f = e := by
  constructor
  · rintro ⟨u, hu⟩
    obtain ⟨s₁, s₂, rfl, _, h₂⟩ := List.append_eq_map_iff.mp hu
    exact ⟨s₂, ⟨s₁, rfl⟩, h₂⟩
  · rintro ⟨t, ⟨u, rfl⟩, rfl⟩
    exact ⟨u.map f, by simp⟩

/-! ## Case -/

theorem char_eq_iff_toNat {c e : Char} : c = e ↔ c.toNat = e.toNat := by
  constructor
  · intro h; rw [h]
  · intro h; rw [← Char.ofNat_toNat c, ← Char.ofNat_toNat e, h]

theorem toNat_ofNat_of_lt {n : Nat} (h : n < 0xd800) : (Char.ofNat n).toNat = n := by
  have hv : n.isValidChar := Or.inl h
  simp [Char.ofNat, hv, Char.ofNatAux, Char.toNat, UInt32.toNat]

theorem sameIgnoringCase_iff (c e : Char) :
    sameIgnoringCase c e = true ↔
      c.toNat = e.toNat ∨ (97 ≤ e.toNat ∧ e.toNat ≤ 122 ∧ c.toNat + 32 = e.toNat) ∨
        (e.toNat = 105 ∧ c.toNat = 0x130) ∨ (e.toNat = 107 ∧ c.toNat = 0x212A) := by
  have hi : e = 'i' ↔ e.toNat = 105 := char_eq_iff_toNat
  have hk : e = 'k' ↔ e.toNat = 107 := char_eq_iff_toNat
  simp only [sameIgnoringCase, Bool.or_eq_true, Bool.and_eq_true, beq_iff_eq, decide_eq_true_eq,
    hi, hk, char_eq_iff_toNat (c := c) (e := e), or_assoc, and_assoc]

/-- Under Go's case table, a code point lower-cases to a given ASCII code point that is not
a capital exactly when the two are the same up to case. -/
theorem lower_eq_iff {lower : Char → Char} (h : IsUnicodeToLower lower) (c e : Char)
    (he : e.toNat < 128) (hne : ¬ (65 ≤ e.toNat ∧ e.toNat ≤ 90)) :
    lower c = e ↔ sameIgnoringCase c e = true := by
  obtain ⟨hU, hA, hI, hK, hN⟩ := h
  rw [sameIgnoringCase_iff]
  by_cases h1 : c.toNat = 0x130
  · rw [hI c h1, char_eq_iff_toNat]
    have : ('i' : Char).toNat = 105 := rfl
    omega
  by_cases h2 : c.toNat = 0x212A
  · rw [hK c h2, char_eq_iff_toNat]
    have : ('k' : Char).toNat = 107 := rfl
    omega
  by_cases h3 : 128 ≤ c.toNat
  · have := hN c h3 h1 h2
    rw [char_eq_iff_toNat]
    omega
  by_cases h4 : 65 ≤ c.toNat ∧ c.toNat ≤ 90
  · have := hU c h4.1 h4.2
    rw [char_eq_iff_toNat]
    omega
  · rw [hA c (by omega) h4, char_eq_iff_toNat]
    omega

theorem isUnicodeToLower_simpleLower : IsUnicodeToLower simpleLower := by
  refine ⟨?_, ?_, ?_, ?_, ?_⟩
  · intro c h1 h2
    have e1 : c.toNat ≠ 0x130 := by omega
    have e2 : c.toNat ≠ 0x212A := by omega
    simp only [simpleLower, e1, e2, if_false, Char.toLower]
    rw [if_pos ⟨h1, h2⟩, toNat_ofNat_of_lt (by omega)]
  · intro c h1 h2
    have e1 : c.toNat ≠ 0x130 := by omega
    have e2 : c.toNat ≠ 0x212A := by omega
    simp only [simpleLower, e1, e2, if_false, Char.toLower]
    rw [if_neg h2]
  · intro c h; simp [simpleLower, h]
  · intro c h; simp [simpleLower, h]
  · intro c h1 h2 h3
    simp only [simpleLower, h2, h3, if_false, Char.toLower]
    rw [if_neg (by omega)]
    exact h1

/-- Lower-casing a string gives a lower-case ASCII string exactly when the two are equal
up to case. -/
theorem map_lower_eq_iff {lower : Char → Char} (h : IsUnicodeToLower lower) :
    ∀ (t ext : List Char),
      (∀ e ∈ ext, e.toNat < 128 ∧ ¬ (65 ≤ e.toNat ∧ e.toNat ≤ 90)) →
      (t.map lower = ext ↔ equalIgnoringCase t ext = true) := by
  intro t
  induction t with
  | nil =>
    intro ext _
    cases ext with
    | nil => simp [equalIgnoringCase]
    | cons e ext => simp [equalIgnoringCase]
  | cons c t ih =>
    intro ext hext
    cases ext with
    | nil => simp [equalIgnoringCase]
    | cons e ext =>
      have he := hext e (List.mem_cons_self _ _)
      simp only [List.map_cons, List.cons.injEq, equalIgnoringCase, Bool.and_eq_true,
        lower_eq_iff h c e he.1 he.2, ih ext (fun x hx => hext x (List.mem_cons_of_mem _ hx))]

theorem length_eq_of_equalIgnoringCase :
    ∀ (t ext : List Char), equalIgnoringCase t ext = true → t.length = ext.length := by
  intro t
  induction t with
  | nil =>
    intro ext h
    cases ext with
    | nil => rfl
    | cons e ext => simp [equalIgnoringCase] at h
  | cons c t ih =>
    intro ext h
    cases ext with
    | nil => simp [equalIgnoringCase] at h
    | cons e ext =>
      simp only [equalIgnoringCase, Bool.and_eq_true] at h
      simp [ih ext h.2]

/-- `HasSuffix` after `ToLower` is the comparison of the end of the string without regard
to case. -/
theorem hasSuffix_toLower {lower : Char → Char} (h : IsUnicodeToLower lower)
    (s ext : List Char) (hext : ∀ e ∈ ext, e.toNat < 128 ∧ ¬ (65 ≤ e.toNat ∧ e.toNat ≤ 90)) :
    HasSuffix (ToLower lower s) ext = endsWithIgnoringCase s ext := by
  rw [Bool.eq_iff_iff]
  simp only [HasSuffix, ToLower, List.isSuffixOf_iff_suffix, suffix_map_iff, endsWithIgnoringCase]
  constructor
  · rintro ⟨t, ⟨u, rfl⟩, ht⟩
    have hE := (map_lower_eq_iff h t ext hext).mp ht
    have hl := length_eq_of_equalIgnoringCase t ext hE
    have : (u ++ t).drop ((u ++ t).length - ext.length) = t := by
      rw [← hl]
      simp
    rw [this]
    exact hE
  · intro hE
    exact ⟨_, List.drop_suffix _ _, (map_lower_eq_iff h _ ext hext).mpr hE⟩

/-! ## Compiling the domain pattern for labels without metacharacters -/

theorem not_meta_of_isMetaChar_false {c : Char} (h : isMetaChar c = false) :
    c ≠ '\\' ∧ c ≠ '.' ∧ c ≠ '^' ∧ c ≠ '$' ∧ c ≠ '[' ∧ c ≠ '(' ∧ c ≠ ')' ∧ c ≠ '|' ∧
      c ≠ '*' ∧ c ≠ '+' ∧ c ≠ '?' ∧ c ≠ '\x7b' := by
  refine ⟨?_, ?_, ?_, ?_, ?_, ?_, ?_, ?_, ?_, ?_, ?_, ?_⟩ <;>
    (rintro rfl; revert h; decide)

/-- A code point that is not a metacharacter, met between atoms, is parsed as a literal. -/
theorem step_plain (st : PState) (c : Char) (hc : isMetaChar c = false)
    (hm : st.mode = .normal ∨ st.mode = .afterRepeat) :
    step st c = .ok (pushRe st (.lit c)) := by
  obtain ⟨h1, h2, h3, h4, h5, h6, h7, h8, h9, h10, h11, h12⟩ := not_meta_of_isMetaChar_false hc
  rcases hm with hm | hm <;>
    simp [step, hm, stepNormal, h1, h2, h3, h4, h5, h6, h7, h8, h9, h10, h11, h12]

theorem foldlM_step_plain :
    ∀ (l : List Char) (st : PState), (∀ c ∈ l, isMetaChar c = false) →
      (st.mode = .normal ∨ st.mode = .afterRepeat) →
      ∃ m, (m = .normal ∨ m = .afterRepeat) ∧
        l.foldlM step st =
          .ok { stack := (l.reverse.map fun c => Item.re (.lit c)) ++ st.stack, mode := m,
                ncap := st.ncap } := by
  intro l
  induction l with
  | nil => intro st _ hm; exact ⟨st.mode, hm, rfl⟩
  | cons c l ih =>
    intro st hl hm
    have hc : isMetaChar c = false := hl c (List.mem_cons_self _ _)
    obtain ⟨m, hm', h⟩ := ih (pushRe st (.lit c)) (fun x hx => hl x (List.mem_cons_of_mem _ hx))
      (Or.inl rfl)
    refine ⟨m, hm', ?_⟩
    rw [List.foldlM_cons, step_plain st c hc hm, ok_bind, h]
    simp [pushRe]

theorem foldlM_step_domainTail_plain (rs : List Regex) (m : Mode) (n : Nat) (l₁ l₂ : List Char)
    (hm : m = .normal ∨ m = .afterRepeat)
    (h₁ : ∀ c ∈ l₁, isMetaChar c = false) (h₂ : ∀ c ∈ l₂, isMetaChar c = false) :
    ((l₁ ++ (r"\.").toList ++ l₂) ++ (r"\/.*$").toList).foldlM step
        { stack := rs.map Item.re, mode := m, ncap := n } >>= finish =
      .ok (catList (rs.reverse ++ l₁.map Regex.lit ++ [Regex.lit '.'] ++ l₂.map Regex.lit ++
        [Regex.lit '/', Regex.star .anyNotNL, Regex.eol])) := by
  obtain ⟨m₁, hm₁, e₁⟩ := foldlM_step_plain l₁ { stack := rs.map Item.re, mode := m, ncap := n }
    h₁ hm
  dsimp only at e₁
  have e₂ : (r"\.").toList.foldlM step
      { stack := (l₁.reverse.map fun c => Item.re (.lit c)) ++ rs.map Item.re, mode := m₁,
        ncap := n } =
      .ok { stack := Item.re (.lit '.') :: ((l₁.reverse.map fun c => Item.re (.lit c)) ++
              rs.map Item.re), mode := .normal, ncap := n } := by
    rcases hm₁ with rfl | rfl <;> rfl
  obtain ⟨m₃, hm₃, e₃⟩ := foldlM_step_plain l₂
    { stack := Item.re (.lit '.') :: ((l₁.reverse.map fun c => Item.re (.lit c)) ++
        rs.map Item.re), mode := .normal, ncap := n } h₂ (Or.inl rfl)
  dsimp only at e₃
  have e₄ : ∀ st : List Item, (r"\/.*$").toList.foldlM step
      { stack := st, mode := m₃, ncap := n } =
      .ok { stack := Item.re .eol :: Item.re (.star .anyNotNL) :: Item.re (.lit '/') :: st,
            mode := .normal, ncap := n } := by
    intro st
    rcases hm₃ with rfl | rfl <;> rfl
  simp only [List.foldlM_append, e₁, e₂, e₃, e₄, ok_bind, bind_assoc]
  have hstack : Item.re .eol :: Item.re (.star .anyNotNL) :: Item.re (.lit '/') ::
      ((l₂.reverse.map fun c => Item.re (.lit c)) ++ Item.re (.lit '.') ::
        ((l₁.reverse.map fun c => Item.re (.lit c)) ++ rs.map Item.re)) =
      ([Regex.eol, Regex.star .anyNotNL, Regex.lit '/'] ++ l₂.reverse.map Regex.lit ++
        [Regex.lit '.'] ++ l₁.reverse.map Regex.lit ++ rs).map Item.re ++ [] := by
    simp
    rfl
  simp only [finish, collapse, hstack, popRun_append, popAlts]
  simp [popRun]

theorem not_dot_of_isMetaChar_false {l : List Char} (h : ∀ c ∈ l, isMetaChar c = false) :
    '.' ∉ l := by
  intro hmem
  exact absurd (h _ hmem) (by decide)

/-- The domain pattern built from two labels free of metacharacters compiles, and to the
expected expression. -/
theorem compile_domainPattern_plain (includeSubdomains : Bool) (l₁ l₂ : List Char)
    (h₁ : ∀ c ∈ l₁, isMetaChar c = false) (h₂ : ∀ c ∈ l₂, isMetaChar c = false) :
    MustCompile (domainPattern [l₁, l₂] includeSubdomains) =
      .ok (domainRegex includeSubdomains l₁ l₂) := by
  unfold domainPattern
  rw [replace_join_two (not_dot_of_isMetaChar_false h₁) (not_dot_of_isMetaChar_false h₂)]
  unfold MustCompile
  cases includeSubdomains with
  | false =>
    simp only [Bool.false_eq_true, if_false]
    rw [List.append_assoc, List.foldlM_append, foldlM_step_strictPrefix, ok_bind,
      foldlM_step_domainTail_plain _ _ _ l₁ l₂ (Or.inr rfl) h₁ h₂]
    rfl
  | true =>
    simp only [if_true]
    rw [List.append_assoc, List.foldlM_append, foldlM_step_permissivePrefix, ok_bind,
      foldlM_step_domainTail_plain _ _ _ l₁ l₂ (Or.inr rfl) h₁ h₂]
    rfl

/-- With at least two labels, `FilterLinksNotInDomain` returns as soon as the pattern
assembled from the last two labels compiles. -/
theorem filterLinksNotInDomain_of_compile {domain : List Char} {pre : List (List Char)}
    {l₁ l₂ : List Char} (links : List (List Char)) {includeSubdomains : Bool} {r : Regex}
    (hsplit : Split domain '.' = pre ++ [l₁, l₂])
    (hc : MustCompile (domainPattern [l₁, l₂] includeSubdomains) = .ok r) :
    FilterLinksNotInDomain domain links includeSubdomains =
      .ok (links.filter (MatchString r)) := by
  unfold FilterLinksNotInDomain
  simp only [hsplit, slice_lastTwo, ok_bind]
  unfold domainPattern at hc
  cases includeSubdomains with
  | false =>
    simp only [Bool.false_eq_true, if_false] at hc ⊢
    rw [hc, ok_bind, pure_eq_ok, filterSlice_eq_filter]
  | true =>
    simp only [if_true] at hc ⊢
    rw [hc, ok_bind, pure_eq_ok, filterSlice_eq_filter]

theorem split_join_lastTwo (labels : List (List Char)) (l₁ l₂ : List Char)
    (hlabels : ∀ l ∈ labels, '.' ∉ l) (h₁ : '.' ∉ l₁) (h₂ : '.' ∉ l₂) :
    Split (Join (labels ++ [l₁, l₂]) ".".toList) '.' = labels ++ [l₁, l₂] := by
  apply split_join '.' _ (by simp)
  intro p hp
  simp only [List.mem_append, List.mem_cons, List.mem_singleton, List.not_mem_nil,
    or_false] at hp
  rcases hp with hp | rfl | rfl
  · exact hlabels p hp
  · exact h₁
  · exact h₂

/-! ## `IsUrl` -/

/-- C4, as stated, fails in both directions: `IsUrl` accepts `http://a .b`, whose remainder
holds a blank, and rejects `http://.b`, whose remainder is free of whitespace and holds a dot. -/
theorem IsUrl_differs_from_wording :
    (IsUrl "http://a .b".toList = .ok true ∧ isUrlAsWritten "http://a .b".toList = false) ∧
      (IsUrl "http://.b".toList = .ok false ∧ isUrlAsWritten "http://.b".toList = true) := by
  decide

/-- C4, amended: `IsUrl` never panics, and it answers true exactly when the string is `http://`
or `https://` followed by a remainder that has no line feed and holds a dot with at least one
code point before it and at least one after it. -/
theorem IsUrl_iff (s : List Char) :
    (∃ b, IsUrl s = .ok b) ∧
      (IsUrl s = .ok true ↔
        ∃ scheme a b, (scheme = "http://".toList ∨ scheme = "https://".toList) ∧
          s = scheme ++ a ++ '.' :: b ∧ a ≠ [] ∧ b ≠ [] ∧ '\n' ∉ a ∧ '\n' ∉ b) := by
  refine ⟨⟨_, isUrl_eq s⟩, ?_⟩
  rw [isUrl_eq, ← matchString_urlRegex]
  constructor
  · intro h; injection h
  · intro h; rw [h]

/-- C5: a string that starts neither with `http://` nor with `https://` is not a URL. -/
theorem IsUrl_false_of_no_scheme (s : List Char) (h₁ : ¬ "http://".toList <+: s)
    (h₂ : ¬ "https://".toList <+: s) : IsUrl s = .ok false := by
  rw [isUrl_eq]
  congr 1
  rw [Bool.eq_false_iff]
  intro h
  obtain ⟨scheme, a, b, (rfl | rfl), rfl, _⟩ := matchString_urlRegex.mp h
  · exact h₁ ⟨a ++ '.' :: b, by simp⟩
  · exact h₂ ⟨a ++ '.' :: b, by simp⟩

/-- C5 at `ftp://a.b`. -/
theorem IsUrl_false_of_no_scheme_witness :
    ¬ "http://".toList <+: "ftp://a.b".toList ∧ ¬ "https://".toList <+: "ftp://a.b".toList ∧
      IsUrl "ftp://a.b".toList = .ok false :=
  ⟨by decide, by decide, IsUrl_false_of_no_scheme _ (by decide) (by decide)⟩

/-! ## `IsFile` and `AddFollowingSlashToUrl` -/

/-- C10: with Go's case table, `IsFile` answers true exactly when the address, compared
without regard to case, ends with one of the nine extensions
`.htm .html .xml .jpeg .jpg .png .ico .php .gif`: its last code points are those of the
extension up to case (`A`–`Z` for `a`–`z`, and the capital U+0130 for `i`, which
`unicode.ToLower` also sends to `i`). -/
theorem IsFile_iff (lower : Char → Char) (hlower : IsUnicodeToLower lower) (s : List Char) :
    IsFile lower s = true ↔ ∃ ext ∈ fileExtensions, endsWithIgnoringCase s ext = true := by
  simp only [IsFile, Bool.or_eq_true, fileExtensions, List.mem_cons, List.mem_singleton,
    List.not_mem_nil, or_false, exists_eq_or_imp, exists_eq_left, or_assoc,
    hasSuffix_toLower hlower s ".htm".toList (by decide),
    hasSuffix_toLower hlower s ".html".toList (by decide),
    hasSuffix_toLower hlower s ".xml".toList (by decide),
    hasSuffix_toLower hlower s ".jpeg".toList (by decide),
    hasSuffix_toLower hlower s ".jpg".toList (by decide),
    hasSuffix_toLower hlower s ".png".toList (by decide),
    hasSuffix_toLower hlower s ".ico".toList (by decide),
    hasSuffix_toLower hlower s ".php".toList (by decide),
    hasSuffix_toLower hlower s ".gif".toList (by decide)]

/-- C10 with the table `simpleLower` at `http://a.b/x.HTML`, which is a file in any mix of
cases, at `http://a.b/x.html/`, which is not, and at `x.` U+0130 `co`, which is a file because
`unicode.ToLower` sends U+0130 to `i`. -/
theorem IsFile_iff_witness :
    IsUnicodeToLower simpleLower ∧
      (IsFile simpleLower "http://a.b/x.HTML".toList = true ↔
        ∃ ext ∈ fileExtensions, endsWithIgnoringCase "http://a.b/x.HTML".toList ext = true) ∧
      IsFile simpleLower "http://a.b/x.HTML".toList = true ∧
      IsFile simpleLower "http://a.b/x.Jpeg".toList = true ∧
      IsFile simpleLower "http://a.b/x.html/".toList = false ∧
      endsWithIgnoringCase "http://a.b/x.HTML".toList ".html".toList = true ∧
      endsWithIgnoringCase "http://a.b/x.html/".toList ".html".toList = false ∧
      IsFile simpleLower "x.\u0130co".toList = true ∧
      endsWithIgnoringCase "x.\u0130co".toList ".ico".toList = true :=
  ⟨isUnicodeToLower_simpleLower,
    IsFile_iff simpleLower isUnicodeToLower_simpleLower "http://a.b/x.HTML".toList,
    by decide, by decide, by decide, by decide, by decide, by decide, by decide⟩

theorem index_explode_last (init : List Char) (c : Char) :
    index (explode (init ++ [c])) (((explode (init ++ [c])).length : Int) - 1) = .ok [c] := by
  have h : ((explode (init ++ [c])).length : Int) - 1 = (init.length : Int) := by
    simp [explode]
  rw [h]
  simp [index, explode, List.getElem?_append_right]

/-- C8: on a non-empty address, `AddFollowingSlashToUrl` appends a slash when the address is
not a file and does not end in a slash, and returns the address unchanged otherwise. -/
theorem AddFollowingSlashToUrl_of_ne_nil (lower : Char → Char) (url : List Char)
    (h : url ≠ []) :
    AddFollowingSlashToUrl lower url =
      .ok (if IsFile lower url = false ∧ url.getLast? ≠ some '/' then url ++ ['/'] else url) := by
  obtain ⟨init, c, rfl⟩ : ∃ init c, url = init ++ [c] :=
    ⟨url.dropLast, url.getLast h, (List.dropLast_append_getLast h).symm⟩
  unfold AddFollowingSlashToUrl
  cases hf : IsFile lower (init ++ [c]) with
  | true => simp
  | false =>
    simp only [Bool.false_eq_true, if_false, AddFollowingSlash, index_explode_last, true_and]
    by_cases hc : c = '/'
    · subst hc; simp [ok_bind, pure_eq_ok]
    · have : [c] ≠ "/".toList := by
        intro h'; apply hc; simpa using h'
      simp [this, hc, ok_bind, pure_eq_ok]

/-- C8 at `http://a.b/dir`. -/
theorem AddFollowingSlashToUrl_of_ne_nil_witness :
    "http://a.b/dir".toList ≠ [] ∧
      AddFollowingSlashToUrl Char.toLower "http://a.b/dir".toList = .ok "http://a.b/dir/".toList :=
  ⟨by decide, by
    rw [AddFollowingSlashToUrl_of_ne_nil Char.toLower "http://a.b/dir".toList (by decide)]
    decide⟩

/-- C9, on the code: for the empty address `strings.Split(str, "")` is empty, the index
`len(chars)-1` is `-1`, and the call panics instead of returning the empty string. -/
theorem AddFollowingSlashToUrl_nil_panics (lower : Char → Char) :
    AddFollowingSlashToUrl lower [] = .error .panic := by
  rfl

/-! ## `ExtractUrlBeforeSharp` and `ExtractUrlBeforeQuestMark` -/

theorem compile_tagPattern : MustCompile (r"^(.*)[#].*$").toList = .ok (beforeRegex '#') := by
  decide

theorem compile_questPattern : MustCompile (r"^(.*)[?].*$").toList = .ok (beforeRegex '?') := by
  decide

/-- C6, as stated, fails on a URL with a line feed: `a#b` followed by a line feed contains
`#`, the text before its last `#` is `a`, yet the URL comes back whole. -/
theorem ExtractUrlBeforeSharp_differs_from_wording :
    '#' ∈ "a#b\n".toList ∧ stripAsWritten '#' "a#b\n".toList = "a".toList ∧
      ExtractUrlBeforeSharp "a#b\n".toList = .ok "a#b\n".toList := by
  decide

/-- C6, amended: `ExtractUrlBeforeSharp` never panics; a URL without `#`, and a URL that
contains a line feed, is returned unchanged; a URL free of line feeds that contains `#` is
cut to the text strictly before its last `#`. -/
theorem ExtractUrlBeforeSharp_spec (url : List Char) :
    ('#' ∉ url → ExtractUrlBeforeSharp url = .ok url) ∧
      ('\n' ∈ url → ExtractUrlBeforeSharp url = .ok url) ∧
      (∀ a b, url = a ++ '#' :: b → '#' ∉ b → '\n' ∉ url → ExtractUrlBeforeSharp url = .ok a) := by
  have hnone : ('#' ∉ url ∨ '\n' ∈ url) → ExtractUrlBeforeSharp url = .ok url := by
    intro h
    unfold ExtractUrlBeforeSharp
    simp only [compile_tagPattern, ok_bind,
      findStringSubmatch_beforeRegex_none (by decide) h, pure_eq_ok]
  refine ⟨fun h => hnone (Or.inl h), fun h => hnone (Or.inr h), ?_⟩
  rintro a b rfl hb hnl
  simp only [List.mem_append, List.mem_cons, not_or] at hnl
  obtain ⟨whole, hw⟩ := findStringSubmatch_beforeRegex_some hb hnl.1 hnl.2.2
  unfold ExtractUrlBeforeSharp
  simp only [compile_tagPattern, ok_bind, hw]
  rfl

/-- C6 at `http://a.com/x#y#z`, which is cut to `http://a.com/x#y`; at `http://a.com/x`,
which has no `#`; and at `a#b` followed by a line feed. -/
theorem ExtractUrlBeforeSharp_spec_witness :
    ('#' ∉ "z".toList ∧ '\n' ∉ "http://a.com/x#y#z".toList ∧
      ExtractUrlBeforeSharp "http://a.com/x#y#z".toList = .ok "http://a.com/x#y".toList) ∧
    ('#' ∉ "http://a.com/x".toList ∧
      ExtractUrlBeforeSharp "http://a.com/x".toList = .ok "http://a.com/x".toList) ∧
    ('\n' ∈ "a#b\n".toList ∧ ExtractUrlBeforeSharp "a#b\n".toList = .ok "a#b\n".toList) :=
  ⟨⟨by decide, by decide,
      (ExtractUrlBeforeSharp_spec "http://a.com/x#y#z".toList).2.2 "http://a.com/x#y".toList
        "z".toList (by decide) (by decide) (by decide)⟩,
    ⟨by decide, (ExtractUrlBeforeSharp_spec "http://a.com/x".toList).1 (by decide)⟩,
    ⟨by decide, (ExtractUrlBeforeSharp_spec "a#b\n".toList).2.1 (by decide)⟩⟩

/-- C7, as stated, fails on a URL with a line feed: `a?b` followed by a line feed contains
`?`, the text before its last `?` is `a`, yet the URL comes back whole. -/
theorem ExtractUrlBeforeQuestMark_differs_from_wording :
    '?' ∈ "a?b\n".toList ∧ stripAsWritten '?' "a?b\n".toList = "a".toList ∧
      ExtractUrlBeforeQuestMark "a?b\n".toList = .ok "a?b\n".toList := by
  decide

/-- C7, amended: `ExtractUrlBeforeQuestMark` never panics; a URL without `?`, and a URL that
contains a line feed, is returned unchanged; a URL free of line feeds that contains `?` is
cut to the text strictly before its last `?`. -/
theorem ExtractUrlBeforeQuestMark_spec (url : List Char) :
    ('?' ∉ url → ExtractUrlBeforeQuestMark url = .ok url) ∧
      ('\n' ∈ url → ExtractUrlBeforeQuestMark url = .ok url) ∧
      (∀ a b, url = a ++ '?' :: b → '?' ∉ b → '\n' ∉ url →
        ExtractUrlBeforeQuestMark url = .ok a) := by
  have hnone : ('?' ∉ url ∨ '\n' ∈ url) → ExtractUrlBeforeQuestMark url = .ok url := by
    intro h
    unfold ExtractUrlBeforeQuestMark
    simp only [compile_questPattern, ok_bind,
      findStringSubmatch_beforeRegex_none (by decide) h, pure_eq_ok]
  refine ⟨fun h => hnone (Or.inl h), fun h => hnone (Or.inr h), ?_⟩
  rintro a b rfl hb hnl
  simp only [List.mem_append, List.mem_cons, not_or] at hnl
  obtain ⟨whole, hw⟩ := findStringSubmatch_beforeRegex_some hb hnl.1 hnl.2.2
  unfold ExtractUrlBeforeQuestMark
  simp only [compile_questPattern, ok_bind, hw]
  rfl

/-- C7 at `http://a.com/x?y?z`, which is cut to `http://a.com/x?y`; at `http://a.com/x`,
which has no `?`; and at `a?b` followed by a line feed. -/
theorem ExtractUrlBeforeQuestMark_spec_witness :
    ('?' ∉ "z".toList ∧ '\n' ∉ "http://a.com/x?y?z".toList ∧
      ExtractUrlBeforeQuestMark "http://a.com/x?y?z".toList = .ok "http://a.com/x?y".toList) ∧
    ('?' ∉ "http://a.com/x".toList ∧
      ExtractUrlBeforeQuestMark "http://a.com/x".toList = .ok "http://a.com/x".toList) ∧
    ('\n' ∈ "a?b\n".toList ∧
      ExtractUrlBeforeQuestMark "a?b\n".toList = .ok "a?b\n".toList) :=
  ⟨⟨by decide, by decide,
      (ExtractUrlBeforeQuestMark_spec "http://a.com/x?y?z".toList).2.2
        "http://a.com/x?y".toList "z".toList (by decide) (by decide) (by decide)⟩,
    ⟨by decide, (ExtractUrlBeforeQuestMark_spec "http://a.com/x".toList).1 (by decide)⟩,
    ⟨by decide, (ExtractUrlBeforeQuestMark_spec "a?b\n".toList).2.1 (by decide)⟩⟩

/-! ## `FilterLinksNotInDomain` -/

/-- C1: for a reference domain of at least two non-empty labels of letters, digits and
hyphens, whose last two labels are `l₁` and `l₂`, the strict filter returns exactly the links
made of `http://` or `https://`, an optional `www.`, the last two labels joined by a dot, a
slash, and a rest free of line feeds. -/
theorem FilterLinksNotInDomain_strict (labels : List (List Char)) (l₁ l₂ : List Char)
    (links : List (List Char))
    (hlabels : ∀ l ∈ labels ++ [l₁, l₂], l ≠ [] ∧ ∀ c ∈ l, isLetterDigitHyphen c = true) :
    ∃ keep : List Char → Bool,
      (∀ link, keep link = true ↔
        ∃ scheme www rest, (scheme = "http://".toList ∨ scheme = "https://".toList) ∧
          (www = [] ∨ www = "www.".toList) ∧ '\n' ∉ rest ∧
          link = scheme ++ www ++ Join [l₁, l₂] ".".toList ++ "/".toList ++ rest) ∧
      FilterLinksNotInDomain (Join (labels ++ [l₁, l₂]) ".".toList) links false =
        .ok (links.filter keep) := by
  refine ⟨MatchString (domainRegex false l₁ l₂), matchString_domainRegex_strict l₁ l₂, ?_⟩
  apply filterLinksNotInDomain_eq
  · intro l hl
    exact not_dot_of_isLetterDigitHyphen (hlabels l (by simp [hl])).2
  · exact (hlabels l₁ (by simp)).2
  · exact (hlabels l₂ (by simp)).2

/-- C1 at the reference domain `blog.example.com`: `http://example.com/p` and
`http://www.example.com/p` are kept, `http://blog.example.com/p` is dropped. -/
theorem FilterLinksNotInDomain_strict_witness :
    (∀ l ∈ ["blog".toList] ++ ["example".toList, "com".toList],
        l ≠ [] ∧ ∀ c ∈ l, isLetterDigitHyphen c = true) ∧
      (∃ keep : List Char → Bool,
        (∀ link, keep link = true ↔
          ∃ scheme www rest, (scheme = "http://".toList ∨ scheme = "https://".toList) ∧
            (www = [] ∨ www = "www.".toList) ∧ '\n' ∉ rest ∧
            link = scheme ++ www ++ Join ["example".toList, "com".toList] ".".toList ++
              "/".toList ++ rest) ∧
        FilterLinksNotInDomain
            (Join (["blog".toList] ++ ["example".toList, "com".toList]) ".".toList)
            ["http://example.com/p".toList, "http://www.example.com/p".toList,
              "http://blog.example.com/p".toList] false =
          .ok (["http://example.com/p".toList, "http://www.example.com/p".toList,
              "http://blog.example.com/p".toList].filter keep)) ∧
      FilterLinksNotInDomain "blog.example.com".toList
          ["http://example.com/p".toList, "http://www.example.com/p".toList,
            "http://blog.example.com/p".toList] false =
        .ok ["http://example.com/p".toList, "http://www.example.com/p".toList] :=
  ⟨by decide,
    FilterLinksNotInDomain_strict ["blog".toList] "example".toList "com".toList _ (by decide),
    by decide⟩

/-- C2: for a reference domain of at least two non-empty labels of letters, digits and
hyphens, whose last two labels are `l₁` and `l₂`, the permissive filter returns exactly the
links made of `http://` or `https://`, any number of sub-domain labels (non-empty runs of
ASCII letters, digits, `_` or `-`, each followed by a dot), the last two labels joined by a
dot, a slash, and a rest free of line feeds. -/
theorem FilterLinksNotInDomain_permissive (labels : List (List Char)) (l₁ l₂ : List Char)
    (links : List (List Char))
    (hlabels : ∀ l ∈ labels ++ [l₁, l₂], l ≠ [] ∧ ∀ c ∈ l, isLetterDigitHyphen c = true) :
    ∃ keep : List Char → Bool,
      (∀ link, keep link = true ↔
        ∃ (scheme : List Char) (subs : List (List Char)) (rest : List Char),
          (scheme = "http://".toList ∨ scheme = "https://".toList) ∧
          (∀ s ∈ subs, s ≠ [] ∧ ∀ c ∈ s, isSubdomainChar c = true) ∧ '\n' ∉ rest ∧
          link = scheme ++ (subs.map fun s => s ++ ".".toList).flatten ++
            Join [l₁, l₂] ".".toList ++ "/".toList ++ rest) ∧
      FilterLinksNotInDomain (Join (labels ++ [l₁, l₂]) ".".toList) links true =
        .ok (links.filter keep) := by
  refine ⟨MatchString (domainRegex true l₁ l₂), matchString_domainRegex_permissive l₁ l₂, ?_⟩
  apply filterLinksNotInDomain_eq
  · intro l hl
    exact not_dot_of_isLetterDigitHyphen (hlabels l (by simp [hl])).2
  · exact (hlabels l₁ (by simp)).2
  · exact (hlabels l₂ (by simp)).2

/-- C2 at the reference domain `blog.example.com`: `http://example.com/p`,
`http://blog.example.com/p` and `http://a.b.example.com/p` are all kept. -/
theorem FilterLinksNotInDomain_permissive_witness :
    (∀ l ∈ ["blog".toList] ++ ["example".toList, "com".toList],
        l ≠ [] ∧ ∀ c ∈ l, isLetterDigitHyphen c = true) ∧
      (∃ keep : List Char → Bool,
        (∀ link, keep link = true ↔
          ∃ (scheme : List Char) (subs : List (List Char)) (rest : List Char),
            (scheme = "http://".toList ∨ scheme = "https://".toList) ∧
            (∀ s ∈ subs, s ≠ [] ∧ ∀ c ∈ s, isSubdomainChar c = true) ∧ '\n' ∉ rest ∧
            link = scheme ++ (subs.map fun s => s ++ ".".toList).flatten ++
              Join ["example".toList, "com".toList] ".".toList ++ "/".toList ++ rest) ∧
        FilterLinksNotInDomain
            (Join (["blog".toList] ++ ["example".toList, "com".toList]) ".".toList)
            ["http://example.com/p".toList, "http://blog.example.com/p".toList,
              "http://a.b.example.com/p".toList] true =
          .ok (["http://example.com/p".toList, "http://blog.example.com/p".toList,
              "http://a.b.example.com/p".toList].filter keep)) ∧
      FilterLinksNotInDomain "blog.example.com".toList
          ["http://example.com/p".toList, "http://blog.example.com/p".toList,
            "http://a.b.example.com/p".toList] true =
        .ok ["http://example.com/p".toList, "http://blog.example.com/p".toList,
          "http://a.b.example.com/p".toList] :=
  ⟨by decide,
    FilterLinksNotInDomain_permissive ["blog".toList] "example".toList "com".toList _
      (by decide),
    by decide⟩

/-- C3, as stated, fails: the empty reference domain and the single label `localhost` make
the slice `domainParts[len-2:len]` panic, and `exa(mple.com` makes `MustCompile` panic. -/
theorem FilterLinksNotInDomain_panics :
    FilterLinksNotInDomain "".toList [] false = .error .panic ∧
      FilterLinksNotInDomain "localhost".toList [] true = .error .panic ∧
      FilterLinksNotInDomain "exa(mple.com".toList [] false = .error .panic := by
  decide

/-- C3, amended: for a reference domain with at least two dot-separated labels,
`FilterLinksNotInDomain` returns a list of links, each taken from the input, and does not
panic, as soon as the pattern assembled from the last two labels compiles; it compiles
whenever these two labels hold none of the metacharacters of RE2 syntax, whatever the
labels before them. -/
theorem FilterLinksNotInDomain_returns :
    (∀ (domain : List Char) (pre : List (List Char)) (l₁ l₂ : List Char)
        (links : List (List Char)) (includeSubdomains : Bool) (r : Regex),
      Split domain '.' = pre ++ [l₁, l₂] →
      MustCompile (domainPattern [l₁, l₂] includeSubdomains) = .ok r →
      ∃ out, FilterLinksNotInDomain domain links includeSubdomains = .ok out ∧
        out = links.filter (MatchString r) ∧ ∀ link ∈ out, link ∈ links) ∧
    (∀ (labels : List (List Char)) (l₁ l₂ : List Char) (links : List (List Char))
        (includeSubdomains : Bool),
      (∀ l ∈ labels, '.' ∉ l) →
      (∀ c ∈ l₁, isMetaChar c = false) → (∀ c ∈ l₂, isMetaChar c = false) →
      ∃ out, FilterLinksNotInDomain (Join (labels ++ [l₁, l₂]) ".".toList) links
          includeSubdomains = .ok out ∧ ∀ link ∈ out, link ∈ links) := by
  constructor
  · intro domain pre l₁ l₂ links includeSubdomains r hsplit hc
    exact ⟨_, filterLinksNotInDomain_of_compile links hsplit hc, rfl,
      fun _ h => List.mem_of_mem_filter h⟩
  · intro labels l₁ l₂ links includeSubdomains hlabels h₁ h₂
    have hsplit := split_join_lastTwo labels l₁ l₂ hlabels (not_dot_of_isMetaChar_false h₁)
      (not_dot_of_isMetaChar_false h₂)
    exact ⟨_, filterLinksNotInDomain_of_compile links hsplit
        (compile_domainPattern_plain includeSubdomains l₁ l₂ h₁ h₂),
      fun _ h => List.mem_of_mem_filter h⟩

/-- C3 (amended) at the reference domains `example.com:8080`, whose pattern compiles, and
`exa(mple.a_b.com`, whose last two labels hold no metacharacter. -/
theorem FilterLinksNotInDomain_returns_witness :
    (Split "example.com:8080".toList '.' = [] ++ ["example".toList, "com:8080".toList] ∧
      MustCompile (domainPattern ["example".toList, "com:8080".toList] true) =
        .ok (domainRegex true "example".toList "com:8080".toList) ∧
      ∃ out, FilterLinksNotInDomain "example.com:8080".toList
          ["http://example.com:8080/p".toList, "http://example.com/p".toList] true = .ok out ∧
        out = ["http://example.com:8080/p".toList, "http://example.com/p".toList].filter
          (MatchString (domainRegex true "example".toList "com:8080".toList)) ∧
        ∀ link ∈ out,
          link ∈ ["http://example.com:8080/p".toList, "http://example.com/p".toList]) ∧
    ((∀ l ∈ ["exa(mple".toList], '.' ∉ l) ∧
      (∀ c ∈ "a_b".toList, isMetaChar c = false) ∧
      (∀ c ∈ "com".toList, isMetaChar c = false) ∧
      ∃ out, FilterLinksNotInDomain
          (Join (["exa(mple".toList] ++ ["a_b".toList, "com".toList]) ".".toList)
          ["http://a_b.com/p".toList] false = .ok out ∧
        ∀ link ∈ out, link ∈ ["http://a_b.com/p".toList]) ∧
    FilterLinksNotInDomain "example.com:8080".toList
        ["http://example.com:8080/p".toList, "http://example.com/p".toList] true =
      .ok ["http://example.com:8080/p".toList] ∧
    FilterLinksNotInDomain "ex ample.com".toList ["http://ex ample.com/".toList] false =
      .ok ["http://ex ample.com/".toList] :=
  ⟨⟨by decide, by decide,
      FilterLinksNotInDomain_returns.1 "example.com:8080".toList [] "example".toList
        "com:8080".toList _ true _ (by decide) (by decide)⟩,
    ⟨by decide, by decide, by decide,
      FilterLinksNotInDomain_returns.2 ["exa(mple".toList] "a_b".toList "com".toList _ false
        (by decide) (by decide) (by decide)⟩,
    by decide, by decide⟩

/-! ## Collections -/

theorem foldl_append_singleton (l acc : List (List Char)) :
    l.foldl (fun uniqueSlice k => uniqueSlice ++ [k]) acc = acc ++ l := by
  induction l generalizing acc with
  | nil => simp
  | cons x l ih => simp [List.foldl_cons, ih]

theorem foldl_mapInsert (xs : List (List Char)) :
    ∀ acc : List (List Char), acc.Nodup →
      (xs.foldl mapInsert acc).Nodup ∧ ∀ s, s ∈ xs.foldl mapInsert acc ↔ s ∈ acc ∨ s ∈ xs := by
  induction xs with
  | nil => intro acc h; simp [h]
  | cons x xs ih =>
    intro acc h
    rw [List.foldl_cons]
    by_cases hx : x ∈ acc
    · have hm : mapInsert acc x = acc := by simp [mapInsert, hx]
      rw [hm]
      obtain ⟨h1, h2⟩ := ih acc h
      refine ⟨h1, fun s => ?_⟩
      rw [h2, List.mem_cons]
      constructor
      · rintro (h | h)
        · exact Or.inl h
        · exact Or.inr (Or.inr h)
      · rintro (h | rfl | h)
        · exact Or.inl h
        · exact Or.inl hx
        · exact Or.inr h
    · have hm : mapInsert acc x = acc ++ [x] := by simp [mapInsert, hx]
      rw [hm]
      obtain ⟨h1, h2⟩ := ih (acc ++ [x]) (by
        rw [List.nodup_append]
        refine ⟨h, List.nodup_singleton x, ?_⟩
        intro a ha hb
        rw [List.mem_singleton] at hb
        subst hb
        exact hx ha)
      refine ⟨h1, fun s => ?_⟩
      rw [h2, List.mem_append, List.mem_singleton, List.mem_cons, or_assoc]

theorem trimSpace_eq_nil_iff (s : List Char) :
    TrimSpace s = [] ↔ ∀ c ∈ s, IsSpace c = true := by
  unfold TrimSpace
  rw [List.reverse_eq_nil_iff, List.dropWhile_eq_nil_iff]
  constructor
  · intro h
    by_contra hne
    have hd : s.dropWhile IsSpace ≠ [] := by
      intro hnil
      rw [List.dropWhile_eq_nil_iff] at hnil
      exact hne hnil
    obtain ⟨c, t, hct⟩ := List.exists_cons_of_ne_nil hd
    have hc : IsSpace c = true := h c (by rw [hct]; simp)
    have hhead := List.head_dropWhile_not IsSpace s hd
    simp only [hct, List.head_cons] at hhead
    rw [hc] at hhead
    exact absurd hhead (by simp)
  · intro h c hc
    rw [List.mem_reverse] at hc
    exact h c ((List.dropWhile_sublist _).subset hc)

theorem removeEmptyStrings_eq_filter (strs : List (List Char)) :
    RemoveEmptyStrings strs = strs.filter fun s => decide (TrimSpace s ≠ []) := by
  have : ∀ (acc : List (List Char)),
      strs.foldl (fun noEmpty str => if TrimSpace str = [] then noEmpty else noEmpty ++ [str])
        acc = acc ++ strs.filter fun s => decide (TrimSpace s ≠ []) := by
    induction strs with
    | nil => intro acc; simp
    | cons x xs ih =>
      intro acc
      by_cases hx : TrimSpace x = []
      · simp [List.foldl_cons, hx, ih, List.filter_cons]
      · simp [List.foldl_cons, hx, ih, List.filter_cons]
  simpa [RemoveEmptyStrings] using this []

/-! ## `Split` and `ExtractDomain` -/

theorem split_ne_nil (s : List Char) (sep : Char) : Split s sep ≠ [] := by
  induction s with
  | nil => simp [Split]
  | cons c s ih =>
    by_cases hc : c = sep
    · simp [Split, hc]
    · cases h : Split s sep with
      | nil => exact absurd h ih
      | cons p ps => simp [Split, hc, h]

/-- No piece of a split contains the separator. -/
theorem not_mem_of_mem_split (sep : Char) :
    ∀ (s p : List Char), p ∈ Split s sep → sep ∉ p := by
  intro s
  induction s with
  | nil => intro p hp; simp [Split] at hp; subst hp; simp
  | cons c s ih =>
    intro p hp
    by_cases hc : c = sep
    · simp only [Split, hc, if_true, List.mem_cons] at hp
      rcases hp with rfl | hp
      · simp
      · exact ih p hp
    · cases h : Split s sep with
      | nil => exact absurd h (split_ne_nil s sep)
      | cons q qs =>
        simp only [Split, hc, if_false, h, List.mem_cons] at hp
        rcases hp with rfl | hp
        · have hq := ih q (by rw [h]; exact List.mem_cons_self _ _)
          simp only [List.mem_cons, not_or]
          exact ⟨fun e => hc e.symm, hq⟩
        · exact ih p (by rw [h]; exact List.mem_cons_of_mem _ hp)

/-- The split of a URL that begins with a scheme free of slashes followed by `://`. -/
theorem split_scheme (schemeName rest : List Char) (h : '/' ∉ schemeName) :
    Split (schemeName ++ "://".toList ++ rest) '/' =
      (schemeName ++ ":".toList) :: [] :: Split rest '/' := by
  have e : schemeName ++ "://".toList ++ rest =
      (schemeName ++ ":".toList) ++ '/' :: ([] ++ '/' :: rest) := by
    simp
  have h' : '/' ∉ schemeName ++ ":".toList := by
    simp only [List.mem_append, not_or]
    exact ⟨h, by decide⟩
  rw [e, split_append_sep _ h', split_append_sep _ (by simp)]

theorem index_two {α : Type} (a b c : α) (l : List α) : index (a :: b :: c :: l) 2 = .ok c := by
  simp [index]

/-- Whenever `FilterLinksNotInDomain` returns, it returns the links some pattern matches. -/
theorem filterLinksNotInDomain_ok {domain : List Char} {links out : List (List Char)}
    {includeSubdomains : Bool}
    (h : FilterLinksNotInDomain domain links includeSubdomains = .ok out) :
    ∃ r : Regex, out = links.filter (MatchString r) := by
  unfold FilterLinksNotInDomain at h
  dsimp only at h
  cases hs : slice (Split domain '.') (((Split domain '.').length : Int) - 2)
      (Split domain '.').length with
  | error e => rw [hs] at h; cases h
  | ok lastTwo =>
    rw [hs, ok_bind] at h
    generalize hc : MustCompile _ = mc at h
    cases mc with
    | error e => cases h
    | ok r =>
      rw [ok_bind, pure_eq_ok, filterSlice_eq_filter] at h
      injection h with h
      exact ⟨r, h.symm⟩

theorem filter_sublist_filter {α : Type} (l : List α) (p q : α → Bool)
    (h : ∀ x, p x = true → q x = true) : (l.filter p).Sublist (l.filter q) := by
  have : l.filter p = (l.filter q).filter p := by
    rw [List.filter_filter]
    congr 1
    funext x
    cases hp : p x with
    | false => simp
    | true => simp [h x hp]
  rw [this]
  exact List.filter_sublist _

theorem not_newline_of_isLetterDigitHyphen {l : List Char}
    (h : ∀ c ∈ l, isLetterDigitHyphen c = true) : '\n' ∉ l := by
  intro hmem
  exact absurd (h _ hmem) (by decide)

theorem not_newline_of_isSubdomainChar {l : List Char}
    (h : ∀ c ∈ l, isSubdomainChar c = true) : '\n' ∉ l := by
  intro hmem
  exact absurd (h _ hmem) (by decide)

/-- A link the strict pattern matches is also matched by the permissive pattern. -/
theorem matchString_permissive_of_strict (l₁ l₂ link : List Char)
    (h : MatchString (domainRegex false l₁ l₂) link = true) :
    MatchString (domainRegex true l₁ l₂) link = true := by
  rw [matchString_domainRegex_strict] at h
  rw [matchString_domainRegex_permissive]
  obtain ⟨scheme, www, rest, hs, (rfl | rfl), hr, rfl⟩ := h
  · exact ⟨scheme, [], rest, hs, by simp, hr, by simp⟩
  · refine ⟨scheme, ["www".toList], rest, hs, ?_, hr, by simp⟩
    intro s hs'
    rw [List.mem_singleton] at hs'
    subst hs'
    exact ⟨by decide, by decide⟩

/-- A link either domain pattern matches is matched by the URL pattern, provided the
second-to-last label of the reference domain is not empty. -/
theorem matchString_urlRegex_of_domainRegex (includeSubdomains : Bool) (l₁ l₂ link : List Char)
    (hne : l₁ ≠ []) (h₁ : ∀ c ∈ l₁, isLetterDigitHyphen c = true)
    (h₂ : ∀ c ∈ l₂, isLetterDigitHyphen c = true)
    (h : MatchString (domainRegex includeSubdomains l₁ l₂) link = true) :
    MatchString urlRegex link = true := by
  have hn₁ := not_newline_of_isLetterDigitHyphen h₁
  have hn₂ := not_newline_of_isLetterDigitHyphen h₂
  rw [matchString_urlRegex]
  cases includeSubdomains with
  | false =>
    rw [matchString_domainRegex_strict] at h
    obtain ⟨scheme, www, rest, hs, hw, hr, rfl⟩ := h
    refine ⟨scheme, www ++ l₁, l₂ ++ '/' :: rest, hs, by simp, by simp [hne], by simp, ?_, ?_⟩
    · rcases hw with rfl | rfl
      · simpa using hn₁
      · simp only [List.mem_append, not_or]
        exact ⟨by decide, hn₁⟩
    · simp only [List.mem_append, List.mem_cons, not_or]
      exact ⟨hn₂, by decide, hr⟩
  | true =>
    rw [matchString_domainRegex_permissive] at h
    obtain ⟨scheme, subs, rest, hs, hsubs, hr, rfl⟩ := h
    refine ⟨scheme, (subs.map fun s => s ++ ".".toList).flatten ++ l₁, l₂ ++ '/' :: rest, hs,
      by simp, by simp [hne], by simp, ?_, ?_⟩
    · simp only [List.mem_append, not_or]
      refine ⟨?_, hn₁⟩
      intro hmem
      rw [List.mem_flatten] at hmem
      obtain ⟨x, hx, hnx⟩ := hmem
      rw [List.mem_map] at hx
      obtain ⟨s, hs', rfl⟩ := hx
      rw [List.mem_append] at hnx
      rcases hnx with hnx | hnx
      · exact not_newline_of_isSubdomainChar (hsubs s hs').2 hnx
      · exact absurd hnx (by decide)
    · simp only [List.mem_append, List.mem_cons, not_or]
      exact ⟨hn₂, by decide, hr⟩

/-! ## `FilterLinksToImages`, `FilterSlice`, `UniqueStringSlice`, `RemoveEmptyStrings` -/

/-- C11: with Go's case table, `FilterLinksToImages` returns, in input order and with
repetitions, exactly the links that, compared without regard to case, end with none of
`.png .jpg .jpeg .gif .ico`. -/
theorem FilterLinksToImages_spec (lower : Char → Char) (hlower : IsUnicodeToLower lower)
    (links : List (List Char)) :
    FilterLinksToImages lower links =
      links.filter fun link => !imageExtensions.any (endsWithIgnoringCase link) := by
  rw [FilterLinksToImages, filterSlice_eq_filter]
  congr 1
  funext link
  simp only [hasSuffix_toLower hlower link ".png".toList (by decide),
    hasSuffix_toLower hlower link ".jpg".toList (by decide),
    hasSuffix_toLower hlower link ".jpeg".toList (by decide),
    hasSuffix_toLower hlower link ".gif".toList (by decide),
    hasSuffix_toLower hlower link ".ico".toList (by decide),
    imageExtensions, List.any_cons, List.any_nil, Bool.or_false, Bool.or_assoc]

/-- C11 with the table `simpleLower`: of `http://x.com/a.jpg` and `http://x.com/a.html` the
second is returned; capitals in the extension make no difference, and a repeated link is
kept as often as it occurs. -/
theorem FilterLinksToImages_spec_witness :
    IsUnicodeToLower simpleLower ∧
      FilterLinksToImages simpleLower
          ["http://x.com/a.jpg".toList, "http://x.com/a.html".toList] =
        ["http://x.com/a.jpg".toList, "http://x.com/a.html".toList].filter
          (fun link => !imageExtensions.any (endsWithIgnoringCase link)) ∧
      FilterLinksToImages simpleLower
          ["http://x.com/a.jpg".toList, "http://x.com/a.html".toList] =
        ["http://x.com/a.html".toList] ∧
      FilterLinksToImages simpleLower
          ["http://x.com/b.html".toList, "http://x.com/A.PNG".toList,
            "http://x.com/b.html".toList, "http://x.com/c.Jpeg".toList,
            "http://x.com/d.gif/".toList] =
        ["http://x.com/b.html".toList, "http://x.com/b.html".toList,
          "http://x.com/d.gif/".toList] :=
  ⟨isUnicodeToLower_simpleLower,
    FilterLinksToImages_spec simpleLower isUnicodeToLower_simpleLower _,
    by decide, by decide⟩

/-- C12: `FilterSlice` returns the elements the predicate accepts, in input order and with
their repetitions; hence whatever `FilterLinksNotInDomain` returns is a sub-list of its input
links, in their order. -/
theorem FilterSlice_spec (xs : List (List Char)) (predicate : List Char → Bool) :
    FilterSlice xs predicate = xs.filter predicate ∧
      ∀ (domain : List Char) (includeSubdomains : Bool) (out : List (List Char)),
        FilterLinksNotInDomain domain xs includeSubdomains = .ok out → out.Sublist xs := by
  refine ⟨filterSlice_eq_filter xs predicate, ?_⟩
  intro domain includeSubdomains out h
  obtain ⟨r, rfl⟩ := filterLinksNotInDomain_ok h
  exact List.filter_sublist _

/-- C12 on the links `http://example.com/p`, `ftp://x`, `http://example.com/p`: the predicate
"begins with `h`" keeps both copies of the first link, and the strict domain filter for
`blog.example.com` returns a sub-list of the links. -/
theorem FilterSlice_spec_witness :
    FilterSlice ["http://example.com/p".toList, "ftp://x".toList, "http://example.com/p".toList]
        (fun s => s.head? == some 'h') =
      ["http://example.com/p".toList, "http://example.com/p".toList] ∧
    FilterLinksNotInDomain "blog.example.com".toList
        ["http://example.com/p".toList, "ftp://x".toList, "http://example.com/p".toList] false =
      .ok ["http://example.com/p".toList, "http://example.com/p".toList] ∧
    List.Sublist ["http://example.com/p".toList, "http://example.com/p".toList]
      ["http://example.com/p".toList, "ftp://x".toList, "http://example.com/p".toList] :=
  ⟨by decide, by decide,
    (FilterSlice_spec
      ["http://example.com/p".toList, "ftp://x".toList, "http://example.com/p".toList]
      (fun s => s.head? == some 'h')).2 "blog.example.com".toList false _ (by decide)⟩

/-- C13: whatever order the map is ranged over, `UniqueStringSlice` returns a list without
repetition that has the same members as the input, so its length is the number of distinct
input strings. -/
theorem UniqueStringSlice_spec (rangeOrder : List (List Char) → List (List Char))
    (hrange : ∀ keys, (rangeOrder keys).Perm keys) (initialSlice : List (List Char)) :
    (UniqueStringSlice rangeOrder initialSlice).Nodup ∧
      (∀ s, s ∈ UniqueStringSlice rangeOrder initialSlice ↔ s ∈ initialSlice) ∧
      (UniqueStringSlice rangeOrder initialSlice).length = initialSlice.toFinset.card := by
  obtain ⟨hnd, hmem⟩ := foldl_mapInsert initialSlice [] List.nodup_nil
  have hp := hrange (initialSlice.foldl mapInsert [])
  have hU : UniqueStringSlice rangeOrder initialSlice =
      rangeOrder (initialSlice.foldl mapInsert []) := by
    simp [UniqueStringSlice, foldl_append_singleton]
  have hnodup : (UniqueStringSlice rangeOrder initialSlice).Nodup := by
    rw [hU]; exact hp.nodup_iff.mpr hnd
  have hmem' : ∀ s, s ∈ UniqueStringSlice rangeOrder initialSlice ↔ s ∈ initialSlice := by
    intro s
    rw [hU, hp.mem_iff, hmem]
    simp
  refine ⟨hnodup, hmem', ?_⟩
  rw [← List.toFinset_card_of_nodup hnodup]
  congr 1
  ext s
  simp [hmem' s]

/-- C13 on `a`, `b`, `a` with the map ranged over in reverse order of insertion: the result
has no repetition, the members `a` and `b`, and length two. -/
theorem UniqueStringSlice_spec_witness :
    (∀ keys : List (List Char), keys.reverse.Perm keys) ∧
      UniqueStringSlice List.reverse ["a".toList, "b".toList, "a".toList] =
        ["b".toList, "a".toList] ∧
      (UniqueStringSlice List.reverse ["a".toList, "b".toList, "a".toList]).Nodup ∧
      (∀ s, s ∈ UniqueStringSlice List.reverse ["a".toList, "b".toList, "a".toList] ↔
        s ∈ ["a".toList, "b".toList, "a".toList]) ∧
      (UniqueStringSlice List.reverse ["a".toList, "b".toList, "a".toList]).length =
        ["a".toList, "b".toList, "a".toList].toFinset.card :=
  ⟨fun keys => List.reverse_perm keys, by decide,
    UniqueStringSlice_spec List.reverse (fun keys => List.reverse_perm keys) _⟩

/-- C14: `RemoveEmptyStrings` returns, in input order and unmodified, the entries whose
trimmed form is not empty, that is the entries with a code point that is not white space;
of a blank, `x` and the empty string it returns `x`. -/
theorem RemoveEmptyStrings_spec :
    (∀ strs, RemoveEmptyStrings strs = strs.filter fun s => decide (TrimSpace s ≠ [])) ∧
      (∀ s, TrimSpace s ≠ [] ↔ ∃ c ∈ s, IsSpace c = false) ∧
      RemoveEmptyStrings [" ".toList, "x".toList, "".toList] = ["x".toList] := by
  refine ⟨removeEmptyStrings_eq_filter, ?_, by decide⟩
  intro s
  rw [Ne, trimSpace_eq_nil_iff]
  simp

/-! ## `ExtractDomain` -/

/-- C15: on a URL made of a scheme, `://`, a host, a slash and a path, scheme and host free
of slashes, `ExtractDomain` returns the host. -/
theorem ExtractDomain_of_shape (schemeName host path : List Char) (hs : '/' ∉ schemeName)
    (hh : '/' ∉ host) :
    ExtractDomain (schemeName ++ "://".toList ++ host ++ "/".toList ++ path) = .ok host := by
  have e : schemeName ++ "://".toList ++ host ++ "/".toList ++ path =
      schemeName ++ "://".toList ++ (host ++ '/' :: path) := by
    simp
  rw [ExtractDomain, e, split_scheme _ _ hs, split_append_sep _ hh, index_two]

/-- C15 at `http://a.com/x/y`. -/
theorem ExtractDomain_of_shape_witness :
    '/' ∉ "http".toList ∧ '/' ∉ "a.com".toList ∧
      ExtractDomain "http://a.com/x/y".toList = .ok "a.com".toList :=
  ⟨by decide, by decide,
    ExtractDomain_of_shape "http".toList "a.com".toList "x/y".toList (by decide) (by decide)⟩

/-- C16, on the code: a string with fewer than two slashes splits into fewer than three
pieces and the index expression `[2]` panics; so for the empty string, for `localhost` and
for `a.com/x`, and for every string without a slash. -/
theorem ExtractDomain_panics :
    ExtractDomain "".toList = .error .panic ∧
      ExtractDomain "localhost".toList = .error .panic ∧
      ExtractDomain "a.com/x".toList = .error .panic ∧
      ∀ url : List Char, '/' ∈ url ∨ ExtractDomain url = .error .panic := by
  refine ⟨by decide, by decide, by decide, fun url => ?_⟩
  by_cases h : '/' ∈ url
  · exact Or.inl h
  · right
    rw [ExtractDomain, split_of_not_mem h]
    rfl

/-- C20: a string that `IsUrl` accepts splits at slashes into at least three pieces, so
`ExtractDomain` returns, and the piece it returns has no slash. -/
theorem ExtractDomain_of_IsUrl (u : List Char) (h : IsUrl u = .ok true) :
    3 ≤ (Split u '/').length ∧
      ∃ segment, ExtractDomain u = .ok segment ∧ '/' ∉ segment := by
  rw [isUrl_eq] at h
  injection h with h
  obtain ⟨scheme, a, b, hs, rfl, _⟩ := matchString_urlRegex.mp h
  have key : ∀ (schemeName : List Char), '/' ∉ schemeName →
      3 ≤ (Split (schemeName ++ "://".toList ++ (a ++ '.' :: b)) '/').length ∧
        ∃ segment, ExtractDomain (schemeName ++ "://".toList ++ (a ++ '.' :: b)) = .ok segment ∧
          '/' ∉ segment := by
    intro schemeName hn
    rw [ExtractDomain, split_scheme _ _ hn]
    cases hsp : Split (a ++ '.' :: b) '/' with
    | nil => exact absurd hsp (split_ne_nil _ _)
    | cons p ps =>
      refine ⟨by simp, p, index_two _ _ _ _, ?_⟩
      exact not_mem_of_mem_split '/' (a ++ '.' :: b) p (by rw [hsp]; exact List.mem_cons_self _ _)
  rcases hs with rfl | rfl
  · have := key "http".toList (by decide)
    simpa using this
  · have := key "https".toList (by decide)
    simpa using this

/-- C20 at `https://a.b/c`. -/
theorem ExtractDomain_of_IsUrl_witness :
    IsUrl "https://a.b/c".toList = .ok true ∧
      3 ≤ (Split "https://a.b/c".toList '/').length ∧
      ∃ segment, ExtractDomain "https://a.b/c".toList = .ok segment ∧ '/' ∉ segment :=
  ⟨by decide, ExtractDomain_of_IsUrl "https://a.b/c".toList (by decide)⟩

/-! ## `WriteToFileAndClose` -/

/-- C17, on the code: the handle is closed on return exactly when it was closed before the
call or both the write and the sync succeeded; when the write fails on an open file the call
returns the error and leaves the file open, and likewise when the sync fails. -/
theorem WriteToFileAndClose_closed_iff :
    (∀ (ε : Type) (faults : Faults ε) (file : File) (data : List UInt8),
      (WriteToFileAndClose faults file data).1.closed = true ↔
        (file.closed = true ∨ (faults.write = none ∧ faults.sync = none))) ∧
      WriteToFileAndClose { write := some "disk full", sync := none, close := none }
          { content := [], synced := false, closed := false } [1, 2] =
        ({ content := [], synced := false, closed := false }, some "disk full") ∧
      WriteToFileAndClose { write := none, sync := some "i/o error", close := none }
          { content := [], synced := false, closed := false } [1, 2] =
        ({ content := [1, 2], synced := false, closed := false }, some "i/o error") := by
  refine ⟨?_, by decide, by decide⟩
  intro ε faults file data
  obtain ⟨w, s, c⟩ := faults
  cases w <;> cases s <;> cases c <;>
    simp [WriteToFileAndClose, File.Write, File.Sync, File.Close]

/-! ## Relations between the filters -/

/-- C18: for a reference domain of at least two non-empty labels of letters, digits and
hyphens, both filters return, and the strict result is a sub-list of the permissive result,
in the same order; in particular every link the strict filter keeps the permissive filter
keeps. -/
theorem FilterLinksNotInDomain_strict_sublist_permissive (labels : List (List Char))
    (l₁ l₂ : List Char) (links : List (List Char))
    (hlabels : ∀ l ∈ labels ++ [l₁, l₂], l ≠ [] ∧ ∀ c ∈ l, isLetterDigitHyphen c = true) :
    ∃ strict permissive,
      FilterLinksNotInDomain (Join (labels ++ [l₁, l₂]) ".".toList) links false = .ok strict ∧
      FilterLinksNotInDomain (Join (labels ++ [l₁, l₂]) ".".toList) links true =
        .ok permissive ∧
      strict.Sublist permissive ∧ ∀ link ∈ strict, link ∈ permissive := by
  have hdot : ∀ l ∈ labels, '.' ∉ l := fun l hl =>
    not_dot_of_isLetterDigitHyphen (hlabels l (by simp [hl])).2
  have h₁ := (hlabels l₁ (by simp)).2
  have h₂ := (hlabels l₂ (by simp)).2
  have hsub := filter_sublist_filter links (MatchString (domainRegex false l₁ l₂))
    (MatchString (domainRegex true l₁ l₂)) (matchString_permissive_of_strict l₁ l₂)
  exact ⟨_, _, filterLinksNotInDomain_eq labels l₁ l₂ links false hdot h₁ h₂,
    filterLinksNotInDomain_eq labels l₁ l₂ links true hdot h₁ h₂, hsub, fun _ h => hsub.subset h⟩

/-- C18 at the reference domain `blog.example.com`. -/
theorem FilterLinksNotInDomain_strict_sublist_permissive_witness :
    (∀ l ∈ ["blog".toList] ++ ["example".toList, "com".toList],
        l ≠ [] ∧ ∀ c ∈ l, isLetterDigitHyphen c = true) ∧
      FilterLinksNotInDomain "blog.example.com".toList
          ["http://blog.example.com/p".toList, "http://www.example.com/p".toList] false =
        .ok ["http://www.example.com/p".toList] ∧
      FilterLinksNotInDomain "blog.example.com".toList
          ["http://blog.example.com/p".toList, "http://www.example.com/p".toList] true =
        .ok ["http://blog.example.com/p".toList, "http://www.example.com/p".toList] ∧
      ∃ strict permissive,
        FilterLinksNotInDomain
            (Join (["blog".toList] ++ ["example".toList, "com".toList]) ".".toList)
            ["http://blog.example.com/p".toList, "http://www.example.com/p".toList] false =
          .ok strict ∧
        FilterLinksNotInDomain
            (Join (["blog".toList] ++ ["example".toList, "com".toList]) ".".toList)
            ["http://blog.example.com/p".toList, "http://www.example.com/p".toList] true =
          .ok permissive ∧
        strict.Sublist permissive ∧ ∀ link ∈ strict, link ∈ permissive :=
  ⟨by decide, by decide, by decide,
    FilterLinksNotInDomain_strict_sublist_permissive ["blog".toList] "example".toList
      "com".toList _ (by decide)⟩

/-- C19: for a reference domain of at least two non-empty labels of letters, digits and
hyphens, with either flag, `FilterLinksNotInDomain` returns, and `IsUrl` accepts every link
of the result. -/
theorem FilterLinksNotInDomain_all_IsUrl (labels : List (List Char)) (l₁ l₂ : List Char)
    (links : List (List Char)) (includeSubdomains : Bool)
    (hlabels : ∀ l ∈ labels ++ [l₁, l₂], l ≠ [] ∧ ∀ c ∈ l, isLetterDigitHyphen c = true) :
    ∃ out,
      FilterLinksNotInDomain (Join (labels ++ [l₁, l₂]) ".".toList) links includeSubdomains =
        .ok out ∧
      ∀ link ∈ out, IsUrl link = .ok true := by
  have hdot : ∀ l ∈ labels, '.' ∉ l := fun l hl =>
    not_dot_of_isLetterDigitHyphen (hlabels l (by simp [hl])).2
  obtain ⟨hne, h₁⟩ := hlabels l₁ (by simp)
  have h₂ := (hlabels l₂ (by simp)).2
  refine ⟨_, filterLinksNotInDomain_eq labels l₁ l₂ links includeSubdomains hdot h₁ h₂, ?_⟩
  intro link hlink
  rw [isUrl_eq, matchString_urlRegex_of_domainRegex includeSubdomains l₁ l₂ link hne h₁ h₂
    (List.mem_filter.mp hlink).2]

/-- C19 at the reference domain `blog.example.com` with sub-domains included. -/
theorem FilterLinksNotInDomain_all_IsUrl_witness :
    (∀ l ∈ ["blog".toList] ++ ["example".toList, "com".toList],
        l ≠ [] ∧ ∀ c ∈ l, isLetterDigitHyphen c = true) ∧
      IsUrl "http://a.b.example.com/p".toList = .ok true ∧
      ∃ out,
        FilterLinksNotInDomain
            (Join (["blog".toList] ++ ["example".toList, "com".toList]) ".".toList)
            ["http://a.b.example.com/p".toList, "http://other.org/".toList] true = .ok out ∧
        ∀ link ∈ out, IsUrl link = .ok true :=
  ⟨by decide, by decide,
    FilterLinksNotInDomain_all_IsUrl ["blog".toList] "example".toList "com".toList _ true
      (by decide)⟩

end Utils
